import Mathlib

/-!
Verification of `raire-rs`, file `src/raire/src/tree_showing_what_assertions_pruned_leaves.rs`.

The development shallowly embeds the Rust source:

* `CandidateIndex` (a `u32` newtype only ever copied and compared) is embedded as `Nat`.
* `Assertion` (from `crate::assertions`, used here only through its two variant shapes and
  their fields) is an inductive with the `NEN`/`NEB` constructors and their fields.
* the three-way evaluation `Assertion::ok_elimination_order_suffix` lives in
  `crate::assertions`, outside the supplied source; all theorems about the tree builder,
  the driver and the selector are therefore stated for an arbitrary evaluation function
  `ev`, and a spec-modelled `Assertion.ok_elimination_order_suffix` is provided for the
  claims (and concrete witnesses) that need the actual semantics.
* `TreeNodeShowingWhatAssertionsPrunedIt::new` recurses while the pool of candidates not
  yet in the elimination-order suffix shrinks; it is embedded with an explicit fuel that
  is always sufficient (`newAux` plus wrapper `new`), and the theorem `new_unfold` proves
  the wrapper satisfies exactly the recursion equation of the Rust code, so the fuel is
  an implementation device only.
* `Vec<bool>` is embedded as `List Bool` (`set` / `getD`), `sort_unstable_by` as a sorted
  permutation produced by `List.insertionSort` with the translated comparator, and the
  `print!`/`println!` calls as an accumulated `List String` of the printed fragments.

The file lists all definitions first, then the theorems.
-/

namespace Raire

/-! # Definitions -/

/-- The three-way result of evaluating an assertion against a partial elimination order,
mirroring `EffectOfAssertionOnEliminationOrderSuffix` from `crate::assertions`. -/
inductive EffectOfAssertionOnEliminationOrderSuffix where
  | Contradiction
  | Ok
  | NeedsMoreDetail
deriving DecidableEq, Repr

abbrev Effect := EffectOfAssertionOnEliminationOrderSuffix

/-- The assertion tagged union from `crate::assertions`, restricted to the two variant
shapes and the fields this component reads (`winner`, `loser`, `continuing`). -/
inductive Assertion where
  | NEN (winner : Nat) (loser : Nat) (continuing : List Nat)
  | NEB (winner : Nat) (loser : Nat)
deriving DecidableEq, Repr

/-- An assertion paired with its opaque audit-difficulty metadata
(`AssertionAndDifficulty`); the payload type is abstract since only the `assertion`
field is ever inspected here. -/
structure AssertionAndDifficulty (D : Type) where
  assertion : Assertion
  difficulty : D
deriving DecidableEq, Repr

/-- The two members of `RaireError` constructed by this component. -/
inductive RaireError where
  | InternalErrorRuledOutWinner
  | InternalErrorDidntRuleOutLoser
deriving DecidableEq, Repr

/-- Modelled from the spec: `Assertion::ok_elimination_order_suffix` of
`crate::assertions` is not part of the supplied source.  The spec describes the contract:
a suffix lists a tail of the hypothetical elimination order chronologically (its last
element is the overall winner, candidates absent from it were eliminated before every
member), an NEB(winner, loser) claim holds when `winner` is eliminated no earlier than
`loser`, an NEN(winner, loser, continuing) claim rules out orders in which `winner` is
the next candidate eliminated at the point where exactly the set `continuing` remains,
and the evaluation returns `Contradiction` when the claim is violated in every completion
of the suffix, `Ok` when it holds in every completion, and `NeedsMoreDetail` otherwise.
This definition decides those three cases directly; it reproduces the repository's own
unit-test trees exactly (see `guide_example_trees` below). -/
def Assertion.ok_elimination_order_suffix : Assertion → List Nat → Effect
  | .NEB winner loser, s =>
    if winner ∈ s then
      if loser ∈ s then
        if s.indexOf winner < s.indexOf loser then .Contradiction else .Ok
      else .Ok
    else
      if loser ∈ s then .Contradiction else .NeedsMoreDetail
  | .NEN winner _loser continuing, s =>
    if continuing.length ≤ s.length then
      -- the moment where exactly `continuing.length` candidates remain lies inside the
      -- suffix: it is decided whether that continuing set is exactly `continuing`, and
      -- if so which candidate is eliminated next.
      let tail := s.drop (s.length - continuing.length)
      if tail.all (fun x => continuing.contains x) && continuing.all (fun x => tail.contains x) then
        if s.getD (s.length - continuing.length) 0 == winner then .Contradiction else .Ok
      else .Ok
    else
      -- the moment lies before the suffix: possible at all only when every suffix member
      -- is still continuing, and then only undecided when `winner` could be the next
      -- eliminated there, i.e. `winner` is continuing but not already in the suffix.
      if s.all (fun x => continuing.contains x) && !s.contains winner && continuing.contains winner then
        .NeedsMoreDetail
      else .Ok

/-- The recursive tree of `TreeNodeShowingWhatAssertionsPrunedIt`: the candidate
eliminated at this node, the indices of the assertions that prune it, its children, and
the validity flag. -/
inductive TreeNodeShowingWhatAssertionsPrunedIt where
  | mk (candidate_being_eliminated_at_this_node : Nat)
       (pruning_assertions : List Nat)
       (children : List TreeNodeShowingWhatAssertionsPrunedIt)
       (valid : Bool)
deriving Repr

abbrev Tree := TreeNodeShowingWhatAssertionsPrunedIt

def TreeNodeShowingWhatAssertionsPrunedIt.candidate_being_eliminated_at_this_node : Tree → Nat
  | .mk c _ _ _ => c

def TreeNodeShowingWhatAssertionsPrunedIt.pruning_assertions : Tree → List Nat
  | .mk _ p _ _ => p

def TreeNodeShowingWhatAssertionsPrunedIt.children : Tree → List Tree
  | .mk _ _ ch _ => ch

def TreeNodeShowingWhatAssertionsPrunedIt.valid : Tree → Bool
  | .mk _ _ _ v => v

/-- The candidates `0..num_candidates` that do not yet occur in the elimination order
suffix, in ascending order: exactly the candidates the `for candidate in 0..num_candidates`
loop of `TreeNodeShowingWhatAssertionsPrunedIt::new` builds a child for. -/
def remainingCandidates (num_candidates : Nat) (suffix : List Nat) : List Nat :=
  (List.range num_candidates).filter (fun x => !suffix.contains x)

/-- Default assertion used to total-ize list indexing; the driver only ever produces
in-bounds indices, mirroring the panic-free behaviour of the Rust code. -/
def dfltAssertion : Assertion := .NEB 0 0

namespace TreeNodeShowingWhatAssertionsPrunedIt

/-- The pruning set of one node: the relevant assertion indices whose evaluation against
the suffix is `Contradiction` (the first arm of the partition loop in the source). -/
def pruningOf (ev : Assertion → List Nat → Effect) (A : List Assertion)
    (rel : List Nat) (s : List Nat) : List Nat :=
  rel.filter (fun i => ev (A.getD i dfltAssertion) s == .Contradiction)

/-- The still-relevant set of one node: the relevant assertion indices whose evaluation
against the suffix is `NeedsMoreDetail`; indices evaluating to `Ok` are discarded. -/
def stillOf (ev : Assertion → List Nat → Effect) (A : List Assertion)
    (rel : List Nat) (s : List Nat) : List Nat :=
  rel.filter (fun i => ev (A.getD i dfltAssertion) s == .NeedsMoreDetail)

/-- Assembles a node from its candidate, partitioned assertion sets and already built
children, performing the validity computation and the extension-mode reconciliation of
`TreeNodeShowingWhatAssertionsPrunedIt::new` (lines 44 and 55-60 of the source). -/
def finishNode (c : Nat) (pruning still : List Nat) (ch : List Tree)
    (consider_children_of_eliminated_nodes : Bool) : Tree :=
  let valid := (pruning.isEmpty && still.isEmpty) || ch.any (·.valid)
  if consider_children_of_eliminated_nodes && !pruning.isEmpty then
    if valid then .mk c pruning [] false else .mk c pruning ch valid
  else .mk c pruning ch valid

/-- Fuel-indexed form of `TreeNodeShowingWhatAssertionsPrunedIt::new`; the fuel bounds
the recursion depth and `new` always supplies enough of it (`newAux_irrel`,
`new_unfold`). -/
def newAux (ev : Assertion → List Nat → Effect) (all_assertions : List Assertion)
    (num_candidates : Nat) :
    Nat → List Nat → Nat → List Nat → Bool → Tree
  | 0, parent_suffix, c, relevant, consider =>
    finishNode c (pruningOf ev all_assertions relevant (c :: parent_suffix))
      (stillOf ev all_assertions relevant (c :: parent_suffix)) [] consider
  | fuel + 1, parent_suffix, c, relevant, consider =>
    let s := c :: parent_suffix
    let pruning := pruningOf ev all_assertions relevant s
    let still := stillOf ev all_assertions relevant s
    let ch := if (pruning.isEmpty || consider) && !still.isEmpty then
        (remainingCandidates num_candidates s).map
          (fun d => newAux ev all_assertions num_candidates fuel s d still
            (consider && pruning.isEmpty))
      else []
    finishNode c pruning still ch consider

/-- `TreeNodeShowingWhatAssertionsPrunedIt::new`: create a tree node for
`candidate` prepended to `parent_elimination_order_suffix`, classifying each relevant
assertion and recursing over the candidates not yet in the suffix.  The recursion
equation this wrapper satisfies is proved as `new_unfold`. -/
def new (ev : Assertion → List Nat → Effect)
    (parent_elimination_order_suffix : List Nat)
    (candidate_being_eliminated_at_this_node : Nat)
    (relevant_assertions : List Nat)
    (all_assertions : List Assertion)
    (num_candidates : Nat)
    (consider_children_of_eliminated_nodes : Bool) : Tree :=
  newAux ev all_assertions num_candidates
    (remainingCandidates num_candidates
      (candidate_being_eliminated_at_this_node :: parent_elimination_order_suffix)).length
    parent_elimination_order_suffix
    candidate_being_eliminated_at_this_node
    relevant_assertions
    consider_children_of_eliminated_nodes

end TreeNodeShowingWhatAssertionsPrunedIt

/-- A property holding at every node of a tree. -/
inductive AllNodes (pr : Tree → Prop) : Tree → Prop where
  | intro (t : Tree) (hself : pr t) (hch : ∀ u ∈ t.children, AllNodes pr u) : AllNodes pr t

/-- Index `i` is a forced mark of a tree: some node reachable from the root through
ancestors with empty pruning sets has no children and pruning set exactly `[i]`. -/
inductive ForcedMark (i : Nat) : Tree → Prop where
  | here (c : Nat) (v : Bool) : ForcedMark i (.mk c [i] [] v)
  | deeper (c : Nat) (ch : List Tree) (v : Bool) (t : Tree) :
      t ∈ ch → ForcedMark i t → ForcedMark i (.mk c [] ch v)

/-- Index `i` occurs in the pruning set of some node of the tree. -/
inductive MemPrunings (i : Nat) : Tree → Prop where
  | self (t : Tree) : i ∈ t.pruning_assertions → MemPrunings i t
  | child (t u : Tree) : u ∈ t.children → MemPrunings i u → MemPrunings i t

mutual
/-- Number of levels of a tree (a leaf has depth 1): the recursion depth
`TreeNodeShowingWhatAssertionsPrunedIt::new` needed to build it. -/
def TreeNodeShowingWhatAssertionsPrunedIt.depth : Tree → Nat
  | .mk _ _ ch _ => TreeNodeShowingWhatAssertionsPrunedIt.depthList ch + 1
/-- Maximal depth of a list of trees. -/
def TreeNodeShowingWhatAssertionsPrunedIt.depthList : List Tree → Nat
  | [] => 0
  | t :: ts => max (TreeNodeShowingWhatAssertionsPrunedIt.depth t)
      (TreeNodeShowingWhatAssertionsPrunedIt.depthList ts)
end

/-! ## The sort comparator of `order_assertions_and_remove_unnecessary` -/

/-- Elementwise comparison of two `continuing` lists, as in the comparator's innermost
loop; the Rust loop runs over the indices of the first list and is only ever reached
when the two lists have equal length. -/
def compareContinuing : List Nat → List Nat → Ordering
  | [], _ => .eq
  | _ :: _, [] => .eq
  | x :: xs, y :: ys => (compare x y).then (compareContinuing xs ys)

/-- The comparator passed to `sort_unstable_by` in
`order_assertions_and_remove_unnecessary`: all NENs before all NEBs, NENs by continuing
length then winner then loser then elementwise continuing, NEBs by winner then loser. -/
def assertionCmp : Assertion → Assertion → Ordering
  | .NEN _ _ _, .NEB _ _ => .lt
  | .NEB _ _, .NEN _ _ _ => .gt
  | .NEN aw al ac, .NEN bw bl bc =>
    (compare ac.length bc.length).then
      (((compare aw bw).then (compare al bl)).then (compareContinuing ac bc))
  | .NEB aw al, .NEB bw bl => (compare aw bw).then (compare al bl)

/-- Discriminator for the NEN variant. -/
def Assertion.isNEN : Assertion → Bool
  | .NEN _ _ _ => true
  | .NEB _ _ => false

/-- Discriminator for the NEB variant. -/
def Assertion.isNEB : Assertion → Bool
  | .NEN _ _ _ => false
  | .NEB _ _ => true

/-- The non-strict order induced by the comparator, used to model the sort. -/
def assertionLe {D : Type} (a b : AssertionAndDifficulty D) : Prop :=
  assertionCmp a.assertion b.assertion ≠ .gt

instance {D : Type} : DecidableRel (@assertionLe D) := fun a b => by
  unfold assertionLe; infer_instance

/-- The driver's in-place `sort_unstable_by`, modelled as a sorted permutation of the
input under the translated comparator. -/
def sortAssertions {D : Type} (l : List (AssertionAndDifficulty D)) :
    List (AssertionAndDifficulty D) :=
  l.insertionSort assertionLe

/-! ## The greedy usage selector `SimplisticWorkOutWhichAssertionsAreUsed`

The selector's state is its `assertions_used : Vec<bool>`, embedded as a `List Bool`.
The `print!` calls of the two passes are modelled by the parallel `*_out` functions
returning the list of printed fragments (the prints depend only on the visited tree,
never on the mutable state). -/

namespace SimplisticWorkOutWhichAssertionsAreUsed

/-- `SimplisticWorkOutWhichAssertionsAreUsed::new`. -/
def mkUsed (len : Nat) : List Bool := List.replicate len false

/-- `SimplisticWorkOutWhichAssertionsAreUsed::uses`. -/
def uses (u : List Bool) (index : Nat) : Bool := u.getD index false

mutual
/-- `SimplisticWorkOutWhichAssertionsAreUsed::add_tree_forced`: mark the single pruning
assertion of childless singleton-pruned nodes, recurse below unpruned nodes. -/
def add_tree_forced (u : List Bool) : Tree → List Bool
  | .mk _ p ch _ =>
    if p.length > 0 then
      if ch.isEmpty then
        if p.length == 1 then u.set (p.getD 0 0) true else u
      else u
    else add_tree_forced_list u ch
/-- Sequential `add_tree_forced` over a child list, in order. -/
def add_tree_forced_list (u : List Bool) : List Tree → List Bool
  | [] => u
  | t :: ts => add_tree_forced_list (add_tree_forced u t) ts
end

mutual
/-- Printed fragments of `add_tree_forced` (the `print!("{}", len)` and `print!("*")`
calls), which depend only on the tree. -/
def add_tree_forced_out : Tree → List String
  | .mk _ p ch _ =>
    if p.length > 0 then
      toString p.length :: (if ch.isEmpty then [] else ["*"])
    else add_tree_forced_out_list ch
def add_tree_forced_out_list : List Tree → List String
  | [] => []
  | t :: ts => add_tree_forced_out t ++ add_tree_forced_out_list ts
end

mutual
/-- `SimplisticWorkOutWhichAssertionsAreUsed::node_already_eliminated`. -/
def node_already_eliminated (u : List Bool) : Tree → Bool
  | .mk _ p ch _ =>
    p.any (fun v => uses u v) || (ch.length != 0 && node_already_eliminated_all u ch)
def node_already_eliminated_all (u : List Bool) : List Tree → Bool
  | [] => true
  | t :: ts => node_already_eliminated u t && node_already_eliminated_all u ts
end

mutual
/-- `SimplisticWorkOutWhichAssertionsAreUsed::add_tree_second_pass`: at a pruned node not
already eliminated under the current marking, mark its first pruning assertion. -/
def add_tree_second_pass (u : List Bool) : Tree → List Bool
  | .mk c p ch v =>
    if p.length > 0 then
      if node_already_eliminated u (.mk c p ch v) then u else u.set (p.getD 0 0) true
    else add_tree_second_pass_list u ch
def add_tree_second_pass_list (u : List Bool) : List Tree → List Bool
  | [] => u
  | t :: ts => add_tree_second_pass_list (add_tree_second_pass u t) ts
end

mutual
/-- Printed fragments of `add_tree_second_pass` (its `print!("{}", len)` call), which
depend only on the tree. -/
def add_tree_second_pass_out : Tree → List String
  | .mk _ p ch _ =>
    if p.length > 0 then [toString p.length] else add_tree_second_pass_out_list ch
def add_tree_second_pass_out_list : List Tree → List String
  | [] => []
  | t :: ts => add_tree_second_pass_out t ++ add_tree_second_pass_out_list ts
end

end SimplisticWorkOutWhichAssertionsAreUsed

/-- The marking `u` covers a tree: every pruned node reachable through unpruned
ancestors is already eliminated under `u` (this is what one run of the greedy second
pass establishes for its tree). -/
inductive Covered (u : List Bool) : Tree → Prop where
  | pruned (t : Tree) : t.pruning_assertions ≠ [] →
      SimplisticWorkOutWhichAssertionsAreUsed.node_already_eliminated u t = true →
      Covered u t
  | unpruned (t : Tree) : t.pruning_assertions = [] →
      (∀ c ∈ t.children, Covered u c) → Covered u t

/-! ## The driver `order_assertions_and_remove_unnecessary` -/

/-- The per-candidate tree the driver builds at step 3: empty parent suffix, the full
index list `0..assertions.len()` as relevant assertions. -/
def candidateTree (ev : Assertion → List Nat → Effect) (A : List Assertion)
    (num_candidates : Nat) (consider : Bool) (c : Nat) : Tree :=
  TreeNodeShowingWhatAssertionsPrunedIt.new ev [] c (List.range A.length) A
    num_candidates consider

/-- State reached by the driver's per-candidate loop: the error (if any) that aborted
it, the selector state after the interleaved forced passes, the retained non-winner
trees, and the printed fragments so far. -/
structure CheckOutcome where
  error : Option RaireError
  used : List Bool
  trees : List Tree
  out : List String
deriving Repr

open SimplisticWorkOutWhichAssertionsAreUsed in
/-- The driver's `for candidate in 0..num_candidates` loop: build each candidate's tree,
abort with the appropriate internal error on a root-validity violation, and otherwise
accumulate the forced pass and the tree for each non-winner. -/
def processCandidates (ev : Assertion → List Nat → Effect) (A : List Assertion)
    (winner : Nat) (num_candidates : Nat) (consider : Bool) :
    List Bool → List Tree → List String → List Nat → CheckOutcome
  | u, trees, out, [] => ⟨none, u, trees, out⟩
  | u, trees, out, c :: cs =>
    let tree := candidateTree ev A num_candidates consider c
    if tree.valid != (c == winner) then
      ⟨some (if c == winner then .InternalErrorRuledOutWinner
             else .InternalErrorDidntRuleOutLoser), u, trees, out⟩
    else if c == winner then
      processCandidates ev A winner num_candidates consider u trees out cs
    else
      processCandidates ev A winner num_candidates consider
        (add_tree_forced u tree) (trees ++ [tree]) (out ++ add_tree_forced_out tree) cs

/-- Result of the driver: the final state of the in-place `assertions` vector, the
`Result` value (`none` models `Ok(())`), and the printed output fragments. -/
structure DriverResult (D : Type) where
  assertions : List (AssertionAndDifficulty D)
  result : Option RaireError
  output : List String

open SimplisticWorkOutWhichAssertionsAreUsed in
/-- The state of the driver after its per-candidate loop: the loop is run over the
candidates `0..num_candidates` on the sorted list's assertions, starting from a fresh
selector state. -/
def driverCheck {D : Type} (ev : Assertion → List Nat → Effect)
    (assertions : List (AssertionAndDifficulty D))
    (winner : Nat) (num_candidates : Nat) (consider : Bool) : CheckOutcome :=
  processCandidates ev ((sortAssertions assertions).map (·.assertion)) winner
    num_candidates consider
    (mkUsed ((sortAssertions assertions).map (·.assertion)).length) [] []
    (List.range num_candidates)

open SimplisticWorkOutWhichAssertionsAreUsed in
/-- The selector state after both passes: the forced passes ran inside the loop, the
second pass is folded over the retained non-winner trees afterwards. -/
def driverUsed {D : Type} (ev : Assertion → List Nat → Effect)
    (assertions : List (AssertionAndDifficulty D))
    (winner : Nat) (num_candidates : Nat) (consider : Bool) : List Bool :=
  (driverCheck ev assertions winner num_candidates consider).trees.foldl
    add_tree_second_pass
    (driverCheck ev assertions winner num_candidates consider).used

open SimplisticWorkOutWhichAssertionsAreUsed in
/-- `order_assertions_and_remove_unnecessary`: sort, build one tree per candidate while
checking the winner invariant, run the two selector passes, and filter the sorted list
down to the assertions marked used. -/
def order_assertions_and_remove_unnecessary {D : Type}
    (ev : Assertion → List Nat → Effect)
    (assertions : List (AssertionAndDifficulty D))
    (winner : Nat) (num_candidates : Nat) (consider : Bool) : DriverResult D :=
  let sorted := sortAssertions assertions
  let co := driverCheck ev assertions winner num_candidates consider
  match co.error with
  | some e => ⟨sorted, some e, co.out⟩
  | none =>
    let u2 := driverUsed ev assertions winner num_candidates consider
    let res := (sorted.enum.filter (fun p => uses u2 p.1)).map (fun p => p.2)
    ⟨res, none,
      co.out ++ (co.trees.map add_tree_second_pass_out).flatten ++
        [" Trimmed " ++ toString (sorted.map (·.assertion)).length
          ++ " assertions down to " ++ toString res.length]⟩

/-! # Theorems -/

namespace TreeNodeShowingWhatAssertionsPrunedIt

@[simp] theorem candidate_mk (c : Nat) (p : List Nat) (ch : List Tree) (v : Bool) :
    (mk c p ch v).candidate_being_eliminated_at_this_node = c := rfl

@[simp] theorem pruning_mk (c : Nat) (p : List Nat) (ch : List Tree) (v : Bool) :
    (mk c p ch v).pruning_assertions = p := rfl

@[simp] theorem children_mk (c : Nat) (p : List Nat) (ch : List Tree) (v : Bool) :
    (mk c p ch v).children = ch := rfl

@[simp] theorem valid_mk (c : Nat) (p : List Nat) (ch : List Tree) (v : Bool) :
    (mk c p ch v).valid = v := rfl

end TreeNodeShowingWhatAssertionsPrunedIt

theorem length_filter_lt_of_mem_not {α : Type} {p : α → Bool} {l : List α} {a : α}
    (ha : a ∈ l) (hpa : p a = false) : (l.filter p).length < l.length := by
  rw [List.length_filter_lt_length_iff_exists]
  exact ⟨a, ha, by simp [hpa]⟩

theorem remainingCandidates_cons (n : Nat) (s : List Nat) (c : Nat) :
    remainingCandidates n (c :: s)
      = (remainingCandidates n s).filter (fun x => !(x == c)) := by
  unfold remainingCandidates
  rw [List.filter_filter]
  apply List.filter_congr
  intro x _
  simp only [List.contains_cons]
  cases h : (x == c) <;> simp [h]

theorem remainingCandidates_cons_length_lt (n : Nat) (s : List Nat) (c : Nat)
    (hc : c ∈ remainingCandidates n s) :
    (remainingCandidates n (c :: s)).length < (remainingCandidates n s).length := by
  rw [remainingCandidates_cons]
  exact length_filter_lt_of_mem_not hc (by simp)

theorem mem_remainingCandidates {n : Nat} {s : List Nat} {c : Nat} :
    c ∈ remainingCandidates n s ↔ c < n ∧ c ∉ s := by
  unfold remainingCandidates
  simp

namespace TreeNodeShowingWhatAssertionsPrunedIt

theorem newAux_irrel (ev : Assertion → List Nat → Effect) (all_assertions : List Assertion)
    (n : Nat) :
    ∀ (fuel₁ fuel₂ : Nat) (ps : List Nat) (c : Nat) (rel : List Nat) (f : Bool),
      (remainingCandidates n (c :: ps)).length ≤ fuel₁ →
      (remainingCandidates n (c :: ps)).length ≤ fuel₂ →
      newAux ev all_assertions n fuel₁ ps c rel f = newAux ev all_assertions n fuel₂ ps c rel f := by
  intro fuel₁
  induction fuel₁ using Nat.strong_induction_on with
  | _ fuel₁ ih =>
    intro fuel₂ ps c rel f h₁ h₂
    cases fuel₁ with
    | zero =>
      cases fuel₂ with
      | zero => rfl
      | succ k =>
        have hrem : remainingCandidates n (c :: ps) = [] := by
          rwa [Nat.le_zero, List.length_eq_zero] at h₁
        simp only [newAux, hrem, List.map_nil, if_neg, ite_self]
    | succ j =>
      cases fuel₂ with
      | zero =>
        have hrem : remainingCandidates n (c :: ps) = [] := by
          rwa [Nat.le_zero, List.length_eq_zero] at h₂
        simp only [newAux, hrem, List.map_nil, if_neg, ite_self]
      | succ k =>
        simp only [newAux]
        congr 1
        split
        · apply List.map_congr_left
          intro d hd
          have hlt := remainingCandidates_cons_length_lt n (c :: ps) d hd
          have hj : (remainingCandidates n (d :: c :: ps)).length ≤ j :=
            Nat.lt_succ_iff.mp (Nat.lt_of_lt_of_le hlt h₁)
          have hk : (remainingCandidates n (d :: c :: ps)).length ≤ k :=
            Nat.lt_succ_iff.mp (Nat.lt_of_lt_of_le hlt h₂)
          exact ih j (Nat.lt_succ_self j) k _ _ _ _ hj hk
        · rfl

/-- The recursion equation of `TreeNodeShowingWhatAssertionsPrunedIt::new`, exactly as in
the source: classify each relevant assertion against the extended suffix, recurse over
the remaining candidates when allowed, then finish the node (validity computation and
extension-mode reconciliation). -/
theorem new_unfold (ev : Assertion → List Nat → Effect) (ps : List Nat) (c : Nat)
    (rel : List Nat) (A : List Assertion) (n : Nat) (f : Bool) :
    new ev ps c rel A n f =
      finishNode c (pruningOf ev A rel (c :: ps)) (stillOf ev A rel (c :: ps))
        (if ((pruningOf ev A rel (c :: ps)).isEmpty || f)
            && !(stillOf ev A rel (c :: ps)).isEmpty then
          (remainingCandidates n (c :: ps)).map
            (fun d => new ev (c :: ps) d (stillOf ev A rel (c :: ps)) A n
              (f && (pruningOf ev A rel (c :: ps)).isEmpty))
        else []) f := by
  unfold new
  cases hfuel : (remainingCandidates n (c :: ps)).length with
  | zero =>
    have hrem : remainingCandidates n (c :: ps) = [] := List.length_eq_zero.mp hfuel
    simp only [newAux, hrem, List.map_nil, ite_self]
  | succ j =>
    simp only [newAux]
    congr 1
    split
    · apply List.map_congr_left
      intro d hd
      have hlt := remainingCandidates_cons_length_lt n (c :: ps) d hd
      rw [hfuel] at hlt
      exact newAux_irrel ev A n j _ _ _ _ _
        (Nat.lt_succ_iff.mp hlt) (Nat.le_refl _)
    · rfl

theorem finishNode_eq (c : Nat) (P T : List Nat) (ch : List Tree) (f : Bool) :
    finishNode c P T ch f =
      if f && !P.isEmpty then
        (if (P.isEmpty && T.isEmpty) || ch.any valid then mk c P [] false
         else mk c P ch false)
      else mk c P ch ((P.isEmpty && T.isEmpty) || ch.any valid) := by
  simp only [finishNode]
  split
  · split
    · rfl
    · next h =>
      rw [Bool.not_eq_true] at h
      rw [h]
  · rfl

theorem finishNode_pruning (c : Nat) (P T : List Nat) (ch : List Tree) (f : Bool) :
    (finishNode c P T ch f).pruning_assertions = P := by
  rw [finishNode_eq]; split
  · split <;> rfl
  · rfl

theorem finishNode_candidate (c : Nat) (P T : List Nat) (ch : List Tree) (f : Bool) :
    (finishNode c P T ch f).candidate_being_eliminated_at_this_node = c := by
  rw [finishNode_eq]; split
  · split <;> rfl
  · rfl

theorem new_pruning (ev : Assertion → List Nat → Effect) (ps : List Nat) (c : Nat)
    (rel : List Nat) (A : List Assertion) (n : Nat) (f : Bool) :
    (new ev ps c rel A n f).pruning_assertions = pruningOf ev A rel (c :: ps) := by
  rw [new_unfold, finishNode_pruning]

theorem new_candidate (ev : Assertion → List Nat → Effect) (ps : List Nat) (c : Nat)
    (rel : List Nat) (A : List Assertion) (n : Nat) (f : Bool) :
    (new ev ps c rel A n f).candidate_being_eliminated_at_this_node = c := by
  rw [new_unfold, finishNode_candidate]

/-- Full characterization of a pruned node built without the extension flag: no
children, invalid. -/
theorem new_eq_of_pruning_ne_false (ev : Assertion → List Nat → Effect) (ps : List Nat)
    (c : Nat) (rel : List Nat) (A : List Assertion) (n : Nat)
    (h : pruningOf ev A rel (c :: ps) ≠ []) :
    new ev ps c rel A n false = mk c (pruningOf ev A rel (c :: ps)) [] false := by
  have hP : (pruningOf ev A rel (c :: ps)).isEmpty = false := by
    simpa [List.isEmpty_iff] using h
  rw [new_unfold, finishNode_eq]
  simp [hP]

/-- Full characterization of a pruned node built with the extension flag: invalid, and
its children (built with the extension privilege revoked) are kept exactly when the
still set is non-empty and every child is invalid. -/
theorem new_eq_of_pruning_ne_true (ev : Assertion → List Nat → Effect) (ps : List Nat)
    (c : Nat) (rel : List Nat) (A : List Assertion) (n : Nat)
    (h : pruningOf ev A rel (c :: ps) ≠ []) :
    new ev ps c rel A n true =
      (if (stillOf ev A rel (c :: ps)).isEmpty then
        mk c (pruningOf ev A rel (c :: ps)) [] false
      else if ((remainingCandidates n (c :: ps)).map
          (fun d => new ev (c :: ps) d (stillOf ev A rel (c :: ps)) A n false)).any valid then
        mk c (pruningOf ev A rel (c :: ps)) [] false
      else
        mk c (pruningOf ev A rel (c :: ps))
          ((remainingCandidates n (c :: ps)).map
            (fun d => new ev (c :: ps) d (stillOf ev A rel (c :: ps)) A n false))
          false) := by
  have hP : (pruningOf ev A rel (c :: ps)).isEmpty = false := by
    simpa [List.isEmpty_iff] using h
  rw [new_unfold, finishNode_eq]
  simp only [hP, Bool.true_and, Bool.and_true, Bool.not_false, if_true, Bool.true_or,
    Bool.false_or, Bool.false_and, Bool.and_false, Bool.or_true]
  cases hT : (stillOf ev A rel (c :: ps)).isEmpty with
  | true => simp [hT]
  | false =>
    simp only [hT, Bool.not_false, Bool.and_true, Bool.or_true, if_true, Bool.false_and,
      if_false, Bool.false_or]
    split <;> rfl

/-- Full characterization of an unpruned node: valid with no children when nothing is
still relevant, otherwise one child per remaining candidate and validity is the
disjunction of the children's. -/
theorem new_eq_of_pruning_empty (ev : Assertion → List Nat → Effect) (ps : List Nat)
    (c : Nat) (rel : List Nat) (A : List Assertion) (n : Nat) (f : Bool)
    (h : pruningOf ev A rel (c :: ps) = []) :
    new ev ps c rel A n f =
      (if (stillOf ev A rel (c :: ps)).isEmpty then mk c [] [] true
      else
        mk c []
          ((remainingCandidates n (c :: ps)).map
            (fun d => new ev (c :: ps) d (stillOf ev A rel (c :: ps)) A n f))
          (((remainingCandidates n (c :: ps)).map
            (fun d => new ev (c :: ps) d (stillOf ev A rel (c :: ps)) A n f)).any valid)) := by
  have hP : (pruningOf ev A rel (c :: ps)).isEmpty = true := by
    simp [List.isEmpty_iff, h]
  rw [new_unfold, finishNode_eq]
  rw [if_neg (by simp [hP])]
  simp only [hP, Bool.true_or, Bool.true_and, Bool.and_true, h]
  cases hT : (stillOf ev A rel (c :: ps)).isEmpty with
  | true => simp [hT, List.isEmpty_iff.mp hT]
  | false => simp [hT]

/-- A pruned node is invalid, whatever the extension flag. -/
theorem new_valid_false_of_pruning_ne (ev : Assertion → List Nat → Effect) (ps : List Nat)
    (c : Nat) (rel : List Nat) (A : List Assertion) (n : Nat) (f : Bool)
    (h : pruningOf ev A rel (c :: ps) ≠ []) :
    (new ev ps c rel A n f).valid = false := by
  cases f with
  | false => rw [new_eq_of_pruning_ne_false ev ps c rel A n h]; rfl
  | true =>
    rw [new_eq_of_pruning_ne_true ev ps c rel A n h]
    split
    · rfl
    · split <;> rfl

/-- Every child of a pruned node is invalid (vacuously true without the extension flag;
with it, this is the extension-mode reconciliation). -/
theorem new_child_invalid_of_pruning_ne (ev : Assertion → List Nat → Effect)
    (ps : List Nat) (c : Nat) (rel : List Nat) (A : List Assertion) (n : Nat) (f : Bool)
    (h : pruningOf ev A rel (c :: ps) ≠ []) :
    ∀ t ∈ (new ev ps c rel A n f).children, t.valid = false := by
  intro t ht
  cases f with
  | false =>
    rw [new_eq_of_pruning_ne_false ev ps c rel A n h] at ht
    simp at ht
  | true =>
    rw [new_eq_of_pruning_ne_true ev ps c rel A n h] at ht
    split at ht
    · simp at ht
    · split at ht
      · simp at ht
      · next hany =>
        rw [Bool.not_eq_true] at hany
        simp only [children_mk] at ht
        have := List.any_eq_false.mp hany t ht
        simpa using this

/-- Every child of a constructed node is itself a constructed node for one of the
remaining candidates, over the still-relevant set, with either the same flag (unpruned
parent) or the revoked flag (extended pruned parent). -/
theorem new_children_mem (ev : Assertion → List Nat → Effect) (ps : List Nat) (c : Nat)
    (rel : List Nat) (A : List Assertion) (n : Nat) (f : Bool) :
    ∀ u ∈ (new ev ps c rel A n f).children, ∃ d ∈ remainingCandidates n (c :: ps),
      u = new ev (c :: ps) d (stillOf ev A rel (c :: ps)) A n f
      ∨ u = new ev (c :: ps) d (stillOf ev A rel (c :: ps)) A n false := by
  intro u hu
  by_cases h : pruningOf ev A rel (c :: ps) = []
  · rw [new_eq_of_pruning_empty ev ps c rel A n f h] at hu
    split at hu
    · simp at hu
    · simp only [children_mk, List.mem_map] at hu
      obtain ⟨d, hd, rfl⟩ := hu
      exact ⟨d, hd, Or.inl rfl⟩
  · cases f with
    | false =>
      rw [new_eq_of_pruning_ne_false ev ps c rel A n h] at hu
      simp at hu
    | true =>
      rw [new_eq_of_pruning_ne_true ev ps c rel A n h] at hu
      split at hu
      · simp at hu
      · split at hu
        · simp at hu
        · simp only [children_mk, List.mem_map] at hu
          obtain ⟨d, hd, rfl⟩ := hu
          exact ⟨d, hd, Or.inr rfl⟩

/-- Without the extension flag, no node of a constructed tree has both a non-empty
pruning set and children. -/
theorem allNodes_pruned_no_children (ev : Assertion → List Nat → Effect)
    (A : List Assertion) (n : Nat) (ps : List Nat) (c : Nat) (rel : List Nat) :
    AllNodes (fun t => t.pruning_assertions ≠ [] → t.children = [])
      (new ev ps c rel A n false) := by
  refine ⟨_, ?_, ?_⟩
  · intro hp
    rw [new_pruning] at hp
    rw [new_eq_of_pruning_ne_false ev ps c rel A n hp]
    rfl
  · intro u hu
    obtain ⟨d, hd, hcase⟩ := new_children_mem ev ps c rel A n false u hu
    rcases hcase with rfl | rfl <;>
      exact allNodes_pruned_no_children ev A n (c :: ps) d (stillOf ev A rel (c :: ps))
termination_by (remainingCandidates n (c :: ps)).length
decreasing_by
  all_goals exact remainingCandidates_cons_length_lt n (c :: ps) d hd

/-- With any flag, a node that has both a non-empty pruning set and children only keeps
those children when every one of them is invalid. -/
theorem allNodes_pruned_children_invalid (ev : Assertion → List Nat → Effect)
    (A : List Assertion) (n : Nat) (ps : List Nat) (c : Nat) (rel : List Nat) (f : Bool) :
    AllNodes (fun t => t.pruning_assertions ≠ [] → ∀ u ∈ t.children, u.valid = false)
      (new ev ps c rel A n f) := by
  refine ⟨_, ?_, ?_⟩
  · intro hp
    rw [new_pruning] at hp
    exact new_child_invalid_of_pruning_ne ev ps c rel A n f hp
  · intro u hu
    obtain ⟨d, hd, hcase⟩ := new_children_mem ev ps c rel A n f u hu
    rcases hcase with rfl | rfl <;>
      exact allNodes_pruned_children_invalid ev A n (c :: ps) d
        (stillOf ev A rel (c :: ps)) _
termination_by (remainingCandidates n (c :: ps)).length
decreasing_by
  all_goals exact remainingCandidates_cons_length_lt n (c :: ps) d hd

theorem depth_eq (t : Tree) : t.depth = depthList t.children + 1 := by
  cases t; rfl

theorem depthList_le {k : Nat} : ∀ {ts : List Tree}, (∀ t ∈ ts, depth t ≤ k) →
    depthList ts ≤ k
  | [], _ => Nat.zero_le k
  | t :: ts, h => by
    rw [depthList]
    exact max_le (h t (by simp)) (depthList_le fun u hu => h u (by simp [hu]))

/-- The recursion consumes one remaining candidate per level: the depth of a
constructed tree is at most one more than the number of candidates not yet in its
suffix. -/
theorem depth_new_le (ev : Assertion → List Nat → Effect) (A : List Assertion) (n : Nat)
    (ps : List Nat) (c : Nat) (rel : List Nat) (f : Bool) :
    depth (new ev ps c rel A n f) ≤ (remainingCandidates n (c :: ps)).length + 1 := by
  rw [depth_eq]
  have hch : ∀ u ∈ (new ev ps c rel A n f).children,
      depth u ≤ (remainingCandidates n (c :: ps)).length := by
    intro u hu
    obtain ⟨d, hd, hcase⟩ := new_children_mem ev ps c rel A n f u hu
    have hlt := remainingCandidates_cons_length_lt n (c :: ps) d hd
    have hbound : (remainingCandidates n (d :: c :: ps)).length + 1
        ≤ (remainingCandidates n (c :: ps)).length := hlt
    rcases hcase with rfl | rfl
    · exact Nat.le_trans (depth_new_le ev A n (c :: ps) d (stillOf ev A rel (c :: ps)) f)
        hbound
    · exact Nat.le_trans
        (depth_new_le ev A n (c :: ps) d (stillOf ev A rel (c :: ps)) false) hbound
  exact Nat.add_le_add_right (depthList_le hch) 1
termination_by (remainingCandidates n (c :: ps)).length
decreasing_by
  all_goals exact remainingCandidates_cons_length_lt n (c :: ps) d hd

/-- Every pruned node of a constructed tree is invalid. -/
theorem allNodes_pruned_invalid (ev : Assertion → List Nat → Effect)
    (A : List Assertion) (n : Nat) (ps : List Nat) (c : Nat) (rel : List Nat) (f : Bool) :
    AllNodes (fun t => t.pruning_assertions ≠ [] → t.valid = false)
      (new ev ps c rel A n f) := by
  refine ⟨_, ?_, ?_⟩
  · intro hp
    rw [new_pruning] at hp
    exact new_valid_false_of_pruning_ne ev ps c rel A n f hp
  · intro u hu
    obtain ⟨d, hd, hcase⟩ := new_children_mem ev ps c rel A n f u hu
    rcases hcase with rfl | rfl <;>
      exact allNodes_pruned_invalid ev A n (c :: ps) d (stillOf ev A rel (c :: ps)) _
termination_by (remainingCandidates n (c :: ps)).length
decreasing_by
  all_goals exact remainingCandidates_cons_length_lt n (c :: ps) d hd

theorem map_candidate_new (ev : Assertion → List Nat → Effect) (s : List Nat)
    (rel : List Nat) (A : List Assertion) (n : Nat) (f : Bool) (l : List Nat) :
    (l.map (fun d => new ev s d rel A n f)).map (·.candidate_being_eliminated_at_this_node)
      = l := by
  induction l with
  | nil => rfl
  | cons d l ih => simp only [List.map_cons, new_candidate, ih]

/-- The candidates of a node's children, in order: either none, or exactly the
remaining candidates. -/
theorem new_children_map_candidate (ev : Assertion → List Nat → Effect) (ps : List Nat)
    (c : Nat) (rel : List Nat) (A : List Assertion) (n : Nat) (f : Bool) :
    (new ev ps c rel A n f).children.map (·.candidate_being_eliminated_at_this_node) = []
    ∨ (new ev ps c rel A n f).children.map (·.candidate_being_eliminated_at_this_node)
        = remainingCandidates n (c :: ps) := by
  by_cases h : pruningOf ev A rel (c :: ps) = []
  · rw [new_eq_of_pruning_empty ev ps c rel A n f h]
    split
    · exact Or.inl rfl
    · right
      simp only [children_mk]
      exact map_candidate_new ev (c :: ps) _ A n f _
  · cases f with
    | false =>
      rw [new_eq_of_pruning_ne_false ev ps c rel A n h]
      exact Or.inl rfl
    | true =>
      rw [new_eq_of_pruning_ne_true ev ps c rel A n h]
      split
      · exact Or.inl rfl
      · split
        · exact Or.inl rfl
        · right
          simp only [children_mk]
          exact map_candidate_new ev (c :: ps) _ A n false _

theorem sorted_remainingCandidates (n : Nat) (s : List Nat) :
    List.Sorted (· < ·) (remainingCandidates n s) :=
  List.Pairwise.sublist (List.filter_sublist _) (List.pairwise_lt_range n)

end TreeNodeShowingWhatAssertionsPrunedIt

/-! ## Claim theorems for the tree constructor -/

open TreeNodeShowingWhatAssertionsPrunedIt in
/-- C4: `TreeNodeShowingWhatAssertionsPrunedIt::new` forms the suffix by prepending the
node's candidate to the parent suffix and partitions the relevant indices by evaluation
against that suffix, with `Contradiction` becoming the pruning set (first conjunct) and
`NeedsMoreDetail` the new relevant set of the children, `Ok` being discarded; outside
the extension-reconciliation case, children exist exactly when (pruning set empty OR
extend flag) AND still-relevant set non-empty — one per candidate absent from the
suffix, in ascending candidate order, each receiving the still-relevant set and the
flag (extend AND pruning empty) — and validity is (pruning empty AND still empty) OR
some child valid. -/
theorem C4_tree_node_construction :
    ∀ (ev : Assertion → List Nat → Effect) (ps : List Nat) (c : Nat) (rel : List Nat)
      (A : List Assertion) (n : Nat) (f : Bool),
      (new ev ps c rel A n f).pruning_assertions
          = rel.filter (fun i => ev (A.getD i dfltAssertion) (c :: ps) == .Contradiction)
      ∧ (new ev ps c rel A n f).candidate_being_eliminated_at_this_node = c
      ∧ List.Sorted (· < ·)
          ((new ev ps c rel A n f).children.map (·.candidate_being_eliminated_at_this_node))
      ∧ (¬(f = true ∧ pruningOf ev A rel (c :: ps) ≠ []) →
          (new ev ps c rel A n f).children
            = (if (pruningOf ev A rel (c :: ps) = [] ∨ f = true)
                  ∧ stillOf ev A rel (c :: ps) ≠ [] then
                (remainingCandidates n (c :: ps)).map
                  (fun d => new ev (c :: ps) d (stillOf ev A rel (c :: ps)) A n
                    (f && (pruningOf ev A rel (c :: ps)).isEmpty))
              else [])
          ∧ (new ev ps c rel A n f).valid
            = (((pruningOf ev A rel (c :: ps)).isEmpty
                  && (stillOf ev A rel (c :: ps)).isEmpty)
                || (new ev ps c rel A n f).children.any valid)) := by
  intro ev ps c rel A n f
  refine ⟨new_pruning ev ps c rel A n f, new_candidate ev ps c rel A n f, ?_, ?_⟩
  · rcases new_children_map_candidate ev ps c rel A n f with h | h <;> rw [h]
    · exact List.sorted_nil
    · exact sorted_remainingCandidates n (c :: ps)
  · intro hnot
    by_cases h : pruningOf ev A rel (c :: ps) = []
    · have hP : (pruningOf ev A rel (c :: ps)).isEmpty = true := by
        simp [List.isEmpty_iff, h]
      by_cases hTp : stillOf ev A rel (c :: ps) = []
      · have hT : (stillOf ev A rel (c :: ps)).isEmpty = true := by
          simp [List.isEmpty_iff, hTp]
        rw [new_eq_of_pruning_empty ev ps c rel A n f h, if_pos hT]
        constructor
        · rw [if_neg (by simp [hTp])]
          rfl
        · simp [hP, hT]
      · have hT : (stillOf ev A rel (c :: ps)).isEmpty = false := by
          simpa [List.isEmpty_iff] using hTp
        rw [new_eq_of_pruning_empty ev ps c rel A n f h,
          if_neg (by simp [hT] : ¬(stillOf ev A rel (c :: ps)).isEmpty = true)]
        constructor
        · rw [if_pos ⟨Or.inl h, hTp⟩]
          simp only [children_mk, hP, Bool.and_true]
        · simp [hP, hT]
    · have hf : f = false := by
        cases f with
        | false => rfl
        | true => exact absurd ⟨rfl, h⟩ hnot
      subst hf
      rw [new_eq_of_pruning_ne_false ev ps c rel A n h]
      constructor
      · rw [if_neg]
        · rfl
        · rintro ⟨hc, -⟩
          rcases hc with hc | hc
          · exact h hc
          · exact Bool.false_ne_true hc
      · have hP : (pruningOf ev A rel (c :: ps)).isEmpty = false := by
          simpa [List.isEmpty_iff] using h
        simp [hP]

open TreeNodeShowingWhatAssertionsPrunedIt in
/-- C5: extension-mode shape invariant.  With the flag off, no node of a constructed
tree has both a non-empty pruning set and children; with any flag, a pruned node that
kept children only did so with every child invalid, and a pruned node's validity is
always forced to false. -/
theorem C5_extension_mode_shape_invariant :
    ∀ (ev : Assertion → List Nat → Effect) (A : List Assertion) (n : Nat) (ps : List Nat)
      (c : Nat) (rel : List Nat),
      AllNodes (fun t => t.pruning_assertions ≠ [] → t.children = [])
        (new ev ps c rel A n false)
      ∧ (∀ f : Bool,
          AllNodes (fun t => t.pruning_assertions ≠ [] →
              ∀ u ∈ t.children, u.valid = false)
            (new ev ps c rel A n f)
          ∧ AllNodes (fun t => t.pruning_assertions ≠ [] → t.valid = false)
            (new ev ps c rel A n f)) := by
  intro ev A n ps c rel
  exact ⟨allNodes_pruned_no_children ev A n ps c rel,
    fun f => ⟨allNodes_pruned_children_invalid ev A n ps c rel f,
      allNodes_pruned_invalid ev A n ps c rel f⟩⟩

open TreeNodeShowingWhatAssertionsPrunedIt in
/-- C9: the tree constructor is total (it is a Lean function) and its recursion depth is
bounded: the tree it returns has depth at most one more than the number of candidates
not yet on the suffix (each level consumes one remaining candidate), that number is at
most `num_candidates`, and a root call for a genuine candidate yields depth at most
`num_candidates`. -/
theorem C9_construction_terminates_with_bounded_depth :
    ∀ (ev : Assertion → List Nat → Effect) (ps : List Nat) (c : Nat) (rel : List Nat)
      (A : List Assertion) (n : Nat) (f : Bool),
      depth (new ev ps c rel A n f) ≤ (remainingCandidates n (c :: ps)).length + 1
      ∧ (remainingCandidates n (c :: ps)).length ≤ n
      ∧ (c < n → depth (new ev [] c rel A n f) ≤ n) := by
  intro ev ps c rel A n f
  refine ⟨depth_new_le ev A n ps c rel f, ?_, ?_⟩
  · calc (remainingCandidates n (c :: ps)).length
        ≤ (List.range n).length := List.length_filter_le _ _
      _ = n := List.length_range n
  · intro hc
    have hlt : (remainingCandidates n [c]).length < n := by
      have := length_filter_lt_of_mem_not (p := fun x => !([c].contains x))
        (List.mem_range.mpr hc) (by simp)
      simpa [remainingCandidates, List.length_range] using this
    exact Nat.le_trans (depth_new_le ev A n [] c rel f) hlt

/-! ## The driver loop -/

namespace SimplisticWorkOutWhichAssertionsAreUsed

theorem uses_mkUsed (len i : Nat) : uses (mkUsed len) i = false := by
  unfold uses mkUsed
  rw [List.getD_eq_getElem?_getD, List.getElem?_replicate]
  split <;> rfl

end SimplisticWorkOutWhichAssertionsAreUsed

open SimplisticWorkOutWhichAssertionsAreUsed

/-- When no candidate in the remaining list violates the winner invariant, the loop
returns no error, folds the forced pass over every non-winner tree in candidate order,
collects those trees, and concatenates their forced-pass output. -/
theorem processCandidates_none (ev : Assertion → List Nat → Effect) (A : List Assertion)
    (w : Nat) (n : Nat) (f : Bool) :
    ∀ (cs : List Nat) (u : List Bool) (trees : List Tree) (out : List String),
      (∀ c ∈ cs, (candidateTree ev A n f c).valid = (c == w)) →
      processCandidates ev A w n f u trees out cs =
        ⟨none,
         (cs.filter (fun c => !(c == w))).foldl
           (fun u' c => add_tree_forced u' (candidateTree ev A n f c)) u,
         trees ++ (cs.filter (fun c => !(c == w))).map (candidateTree ev A n f),
         out ++ ((cs.filter (fun c => !(c == w))).map
           (fun c => add_tree_forced_out (candidateTree ev A n f c))).flatten⟩ := by
  intro cs
  induction cs with
  | nil => intro u trees out _; simp [processCandidates]
  | cons c cs ih =>
    intro u trees out h
    have hc := h c (by simp)
    have hcs : ∀ c' ∈ cs, (candidateTree ev A n f c').valid = (c' == w) :=
      fun c' hc' => h c' (by simp [hc'])
    rw [processCandidates]
    rw [if_neg (by simp [hc])]
    cases hw : (c == w) with
    | true =>
      rw [if_pos rfl, ih u trees out hcs]
      simp [List.filter_cons, hw]
    | false =>
      rw [if_neg (by simp)]
      rw [ih _ _ _ hcs]
      simp [List.filter_cons, hw]

/-- Error characterization of the loop over a contiguous candidate range: no error iff
no violation, and an error names the first (smallest) violating candidate, with
`RuledOutWinner` for the winner and `DidntRuleOutLoser` otherwise. -/
theorem processCandidates_range' (ev : Assertion → List Nat → Effect) (A : List Assertion)
    (w : Nat) (n : Nat) (f : Bool) :
    ∀ (b a : Nat) (u : List Bool) (trees : List Tree) (out : List String),
      ((processCandidates ev A w n f u trees out (List.range' a b)).error = none ↔
        ∀ c, a ≤ c → c < a + b → (candidateTree ev A n f c).valid = (c == w))
      ∧ (∀ e, (processCandidates ev A w n f u trees out (List.range' a b)).error = some e →
          ∃ c, a ≤ c ∧ c < a + b ∧ ¬((candidateTree ev A n f c).valid = (c == w))
            ∧ (∀ c', a ≤ c' → c' < c → (candidateTree ev A n f c').valid = (c' == w))
            ∧ e = (if c = w then RaireError.InternalErrorRuledOutWinner
                   else RaireError.InternalErrorDidntRuleOutLoser)) := by
  intro b
  induction b with
  | zero =>
    intro a u trees out
    constructor
    · simp [processCandidates]
      omega
    · intro e he
      simp [processCandidates] at he
  | succ b ih =>
    intro a u trees out
    rw [List.range'_succ]
    by_cases hviol : (candidateTree ev A n f a).valid = (a == w)
    · have hbne : ((candidateTree ev A n f a).valid != (a == w)) = false := by
        simp [hviol]
      obtain ⟨u', trees', out', hstep⟩ : ∃ u' trees' out',
          processCandidates ev A w n f u trees out (a :: List.range' (a + 1) b)
            = processCandidates ev A w n f u' trees' out' (List.range' (a + 1) b) := by
        rw [processCandidates, if_neg (by simp [hbne])]
        by_cases hw : (a == w) = true
        · rw [if_pos hw]; exact ⟨_, _, _, rfl⟩
        · rw [if_neg hw]; exact ⟨_, _, _, rfl⟩
      rw [hstep]
      obtain ⟨ihnone, ihsome⟩ := ih (a + 1) u' trees' out'
      constructor
      · rw [ihnone]
        constructor
        · intro hall c hac hcb
          rcases Nat.eq_or_lt_of_le hac with rfl | hlt
          · exact hviol
          · exact hall c hlt (by omega)
        · intro hall c hac hcb
          exact hall c (by omega) (by omega)
      · intro e he
        obtain ⟨c, hc1, hc2, hc3, hc4, hc5⟩ := ihsome e he
        refine ⟨c, by omega, by omega, hc3, ?_, hc5⟩
        intro c' hac' hc'c
        rcases Nat.eq_or_lt_of_le hac' with rfl | h'
        · exact hviol
        · exact hc4 c' h' hc'c
    · have hbne : ((candidateTree ev A n f a).valid != (a == w)) = true :=
        bne_iff_ne.mpr hviol
      rw [processCandidates, if_pos hbne]
      constructor
      · constructor
        · intro h; simp at h
        · intro hall; exact absurd (hall a (Nat.le_refl a) (by omega)) hviol
      · intro e he
        simp only [Option.some_inj] at he
        refine ⟨a, Nat.le_refl a, by omega, hviol, fun c' h1 h2 => by omega, ?_⟩
        rw [← he]
        by_cases hw : a = w
        · rw [if_pos hw, if_pos (by simp [hw])]
        · rw [if_neg hw, if_neg (by simp [hw])]

/-- The driver's `Result` value is exactly the error component of its per-candidate
loop. -/
theorem driver_result_eq {D : Type} (ev : Assertion → List Nat → Effect)
    (assertions : List (AssertionAndDifficulty D)) (w n : Nat) (f : Bool) :
    (order_assertions_and_remove_unnecessary ev assertions w n f).result
      = (driverCheck ev assertions w n f).error := by
  unfold order_assertions_and_remove_unnecessary
  cases h : (driverCheck ev assertions w n f).error <;> simp [h]

/-- On the error path the driver leaves the list sorted but unfiltered, and emits only
what the loop printed before aborting. -/
theorem driver_eq_of_error {D : Type} (ev : Assertion → List Nat → Effect)
    (assertions : List (AssertionAndDifficulty D)) (w n : Nat) (f : Bool)
    (e : RaireError) (h : (driverCheck ev assertions w n f).error = some e) :
    order_assertions_and_remove_unnecessary ev assertions w n f
      = ⟨sortAssertions assertions, some e, (driverCheck ev assertions w n f).out⟩ := by
  unfold order_assertions_and_remove_unnecessary
  simp only [h]

/-- On the success path the driver filters the sorted list by the final marking and
appends the second-pass output and the `Trimmed` line. -/
theorem driver_eq_of_none {D : Type} (ev : Assertion → List Nat → Effect)
    (assertions : List (AssertionAndDifficulty D)) (w n : Nat) (f : Bool)
    (h : (driverCheck ev assertions w n f).error = none) :
    order_assertions_and_remove_unnecessary ev assertions w n f
      = ⟨((sortAssertions assertions).enum.filter
            (fun p => uses (driverUsed ev assertions w n f) p.1)).map (fun p => p.2),
         none,
         (driverCheck ev assertions w n f).out
           ++ ((driverCheck ev assertions w n f).trees.map add_tree_second_pass_out).flatten
           ++ [" Trimmed " ++ toString ((sortAssertions assertions).map (·.assertion)).length
                ++ " assertions down to "
                ++ toString (((sortAssertions assertions).enum.filter
                      (fun p => uses (driverUsed ev assertions w n f) p.1)).map
                        (fun p => p.2)).length]⟩ := by
  unfold order_assertions_and_remove_unnecessary
  simp only [h]

/-! ## Claim theorems about the driver -/

/-- C1: the driver succeeds exactly when, for every candidate `c` below
`num_candidates`, the pruning tree built from the sorted assertion list with an empty
suffix has root validity equal to `c == winner`; otherwise it aborts at the smallest
violating candidate with `InternalErrorRuledOutWinner` for the winner and
`InternalErrorDidntRuleOutLoser` for a non-winner, leaving the list exactly sorted with
nothing removed. -/
theorem C1_winner_invariant_check :
    ∀ {D : Type} (ev : Assertion → List Nat → Effect)
      (assertions : List (AssertionAndDifficulty D)) (w n : Nat) (f : Bool),
      ((order_assertions_and_remove_unnecessary ev assertions w n f).result = none
        ↔ ∀ c, c < n →
            (candidateTree ev ((sortAssertions assertions).map (·.assertion)) n f c).valid
              = (c == w))
      ∧ (∀ e, (order_assertions_and_remove_unnecessary ev assertions w n f).result = some e →
          (order_assertions_and_remove_unnecessary ev assertions w n f).assertions
              = sortAssertions assertions
          ∧ ∃ c, c < n
            ∧ ¬((candidateTree ev ((sortAssertions assertions).map (·.assertion)) n f c).valid
                  = (c == w))
            ∧ (∀ c', c' < c →
                (candidateTree ev ((sortAssertions assertions).map (·.assertion)) n f c').valid
                  = (c' == w))
            ∧ e = (if c = w then RaireError.InternalErrorRuledOutWinner
                   else RaireError.InternalErrorDidntRuleOutLoser)) := by
  intro D ev assertions w n f
  have hrange := processCandidates_range' ev
    ((sortAssertions assertions).map (·.assertion)) w n f n 0
    (mkUsed ((sortAssertions assertions).map (·.assertion)).length) [] []
  rw [← List.range_eq_range'] at hrange
  constructor
  · rw [driver_result_eq]
    unfold driverCheck
    rw [hrange.1]
    constructor
    · intro hall c hc; exact hall c (Nat.zero_le c) (by omega)
    · intro hall c _ hc; exact hall c (by omega)
  · intro e he
    rw [driver_result_eq] at he
    refine ⟨?_, ?_⟩
    · rw [driver_eq_of_error ev assertions w n f e he]
    · obtain ⟨c, -, hc2, hc3, hc4, hc5⟩ := hrange.2 e he
      exact ⟨c, by omega, hc3, fun c' hc' => hc4 c' (Nat.zero_le c') hc', hc5⟩

/-- C10: with zero candidates the driver always succeeds whatever the winner argument,
builds no tree, marks nothing used, and filters every record out, leaving the list
empty. -/
theorem C10_zero_candidates_empties_list :
    ∀ {D : Type} (ev : Assertion → List Nat → Effect)
      (assertions : List (AssertionAndDifficulty D)) (w : Nat) (f : Bool),
      (order_assertions_and_remove_unnecessary ev assertions w 0 f).result = none
      ∧ (order_assertions_and_remove_unnecessary ev assertions w 0 f).assertions = []
      ∧ (driverCheck ev assertions w 0 f).trees = []
      ∧ driverUsed ev assertions w 0 f
          = mkUsed ((sortAssertions assertions).map (·.assertion)).length
      ∧ (∀ i, uses (driverUsed ev assertions w 0 f) i = false)
      ∧ (order_assertions_and_remove_unnecessary ev assertions w 0 f).output
          = [" Trimmed " ++ toString (sortAssertions assertions).length
              ++ " assertions down to " ++ toString 0] := by
  intro D ev assertions w f
  have hcheck : driverCheck ev assertions w 0 f
      = ⟨none, mkUsed ((sortAssertions assertions).map (·.assertion)).length, [], []⟩ := by
    unfold driverCheck
    rw [List.range_zero, processCandidates]
  have hused : driverUsed ev assertions w 0 f
      = mkUsed ((sortAssertions assertions).map (·.assertion)).length := by
    unfold driverUsed
    rw [hcheck]
    rfl
  have huses : ∀ i, uses (driverUsed ev assertions w 0 f) i = false := by
    intro i; rw [hused]; exact uses_mkUsed _ i
  have hfilter : ((sortAssertions assertions).enum.filter
      (fun p => uses (driverUsed ev assertions w 0 f) p.1)) = [] := by
    apply List.filter_eq_nil_iff.mpr
    intro p _
    simp [huses]
  have hdrv := driver_eq_of_none ev assertions w 0 f (by rw [hcheck])
  rw [hfilter] at hdrv
  refine ⟨?_, ?_, ?_, hused, huses, ?_⟩
  · rw [hdrv]
  · rw [hdrv]; rfl
  · rw [hcheck]
  · rw [hdrv, hcheck]
    simp only [List.length_map, List.map_nil, List.length_nil, List.nil_append,
      List.append_nil, List.flatten_nil]

/-! ## Comparator theory and the sort -/

theorem then_eq_lt_iff (o₁ o₂ : Ordering) :
    o₁.then o₂ = .lt ↔ (o₁ = .lt ∨ (o₁ = .eq ∧ o₂ = .lt)) := by
  cases o₁ <;> simp [Ordering.then]

theorem then_eq_eq_iff (o₁ o₂ : Ordering) :
    o₁.then o₂ = .eq ↔ (o₁ = .eq ∧ o₂ = .eq) := by
  cases o₁ <;> simp [Ordering.then]

theorem compareContinuing_swap : ∀ (x y : List Nat),
    compareContinuing x y = (compareContinuing y x).swap
  | [], [] => rfl
  | [], _ :: _ => rfl
  | _ :: _, [] => rfl
  | x :: xs, y :: ys => by
    rw [compareContinuing, compareContinuing, Ordering.swap_then, Nat.compare_swap,
      compareContinuing_swap xs ys]

theorem compareContinuing_eq_iff : ∀ (x y : List Nat), x.length = y.length →
    (compareContinuing x y = .eq ↔ x = y)
  | [], [], _ => by simp [compareContinuing]
  | [], _ :: _, h => by simp at h
  | _ :: _, [], h => by simp at h
  | x :: xs, y :: ys, h => by
    rw [compareContinuing, then_eq_eq_iff, Nat.compare_eq_eq,
      compareContinuing_eq_iff xs ys (by simpa using h)]
    simp

theorem compareContinuing_lt_trans : ∀ (x y z : List Nat), x.length = y.length →
    y.length = z.length → compareContinuing x y = .lt → compareContinuing y z = .lt →
    compareContinuing x z = .lt
  | [], [], [], _, _, h1, _ => by simp [compareContinuing] at h1
  | [], _ :: _, _, h, _, _, _ => by simp at h
  | _ :: _, [], _, h, _, _, _ => by simp at h
  | _ :: _, _ :: _, [], _, h, _, _ => by simp at h
  | x :: xs, y :: ys, z :: zs, hl1, hl2, h1, h2 => by
    rw [compareContinuing, then_eq_lt_iff] at h1 h2 ⊢
    rcases h1 with h1 | ⟨h1e, h1c⟩ <;> rcases h2 with h2 | ⟨h2e, h2c⟩
    · rw [Nat.compare_eq_lt] at h1 h2
      exact Or.inl (Nat.compare_eq_lt.mpr (Nat.lt_trans h1 h2))
    · rw [Nat.compare_eq_eq] at h2e
      rw [← h2e]
      exact Or.inl h1
    · rw [Nat.compare_eq_eq] at h1e
      rw [h1e]
      exact Or.inl h2
    · rw [Nat.compare_eq_eq] at h1e h2e
      refine Or.inr ⟨by rw [h1e, h2e, Nat.compare_eq_eq], ?_⟩
      exact compareContinuing_lt_trans xs ys zs (by simpa using hl1) (by simpa using hl2)
        h1c h2c

theorem natPairCmp_lt_trans {x₁ x₂ y₁ y₂ z₁ z₂ : Nat}
    (h1 : (compare x₁ y₁).then (compare x₂ y₂) = .lt)
    (h2 : (compare y₁ z₁).then (compare y₂ z₂) = .lt) :
    (compare x₁ z₁).then (compare x₂ z₂) = .lt := by
  rw [then_eq_lt_iff] at h1 h2 ⊢
  rcases h1 with h1 | ⟨h1e, h1r⟩ <;> rcases h2 with h2 | ⟨h2e, h2r⟩ <;>
    simp only [Nat.compare_eq_lt, Nat.compare_eq_eq] at *
  · omega
  · omega
  · omega
  · omega

theorem nenTail_lt_trans {wa la wb lb wc lc : Nat} {ca cb cc2 : List Nat}
    (hl1 : ca.length = cb.length) (hl2 : cb.length = cc2.length)
    (h1 : ((compare wa wb).then (compare la lb)).then (compareContinuing ca cb) = .lt)
    (h2 : ((compare wb wc).then (compare lb lc)).then (compareContinuing cb cc2) = .lt) :
    ((compare wa wc).then (compare la lc)).then (compareContinuing ca cc2) = .lt := by
  rw [then_eq_lt_iff] at h1 h2 ⊢
  rcases h1 with h1 | ⟨h1e, h1c⟩ <;> rcases h2 with h2 | ⟨h2e, h2c⟩
  · exact Or.inl (natPairCmp_lt_trans h1 h2)
  · rw [then_eq_eq_iff, Nat.compare_eq_eq, Nat.compare_eq_eq] at h2e
    rw [← h2e.1, ← h2e.2]
    exact Or.inl h1
  · rw [then_eq_eq_iff, Nat.compare_eq_eq, Nat.compare_eq_eq] at h1e
    rw [h1e.1, h1e.2]
    exact Or.inl h2
  · rw [then_eq_eq_iff, Nat.compare_eq_eq, Nat.compare_eq_eq] at h1e h2e
    refine Or.inr ⟨by rw [then_eq_eq_iff, Nat.compare_eq_eq, Nat.compare_eq_eq,
      h1e.1, h2e.1, h1e.2, h2e.2]; exact ⟨rfl, rfl⟩, ?_⟩
    exact compareContinuing_lt_trans ca cb cc2 hl1 hl2 h1c h2c

theorem assertionCmp_swap (a b : Assertion) :
    assertionCmp a b = (assertionCmp b a).swap := by
  cases a with
  | NEN wa la ca =>
    cases b with
    | NEB wb lb => rfl
    | NEN wb lb cb =>
      rw [assertionCmp, assertionCmp, Ordering.swap_then, Ordering.swap_then,
        Ordering.swap_then, Nat.compare_swap, Nat.compare_swap, Nat.compare_swap,
        ← compareContinuing_swap]
  | NEB wa la =>
    cases b with
    | NEN wb lb cb => rfl
    | NEB wb lb =>
      rw [assertionCmp, assertionCmp, Ordering.swap_then, Nat.compare_swap,
        Nat.compare_swap]

theorem assertionCmp_lt_trans {a b c : Assertion} (h1 : assertionCmp a b = .lt)
    (h2 : assertionCmp b c = .lt) : assertionCmp a c = .lt := by
  cases a with
  | NEN wa la ca =>
    cases c with
    | NEB wc lc => rfl
    | NEN wc lc cc2 =>
      cases b with
      | NEB wb lb => exact absurd h2 (by rw [assertionCmp]; intro h; cases h)
      | NEN wb lb cb =>
        rw [assertionCmp, then_eq_lt_iff] at h1 h2 ⊢
        rcases h1 with h1 | ⟨h1e, h1r⟩ <;> rcases h2 with h2 | ⟨h2e, h2r⟩
        · rw [Nat.compare_eq_lt] at h1 h2
          exact Or.inl (Nat.compare_eq_lt.mpr (Nat.lt_trans h1 h2))
        · rw [Nat.compare_eq_eq] at h2e
          rw [← h2e]
          exact Or.inl h1
        · rw [Nat.compare_eq_eq] at h1e
          rw [h1e]
          exact Or.inl h2
        · rw [Nat.compare_eq_eq] at h1e h2e
          exact Or.inr ⟨by rw [h1e, h2e, Nat.compare_eq_eq],
            nenTail_lt_trans h1e h2e h1r h2r⟩
  | NEB wa la =>
    cases b with
    | NEN wb lb cb => exact absurd h1 (by rw [assertionCmp]; intro h; cases h)
    | NEB wb lb =>
      cases c with
      | NEN wc lc cc2 => exact absurd h2 (by rw [assertionCmp]; intro h; cases h)
      | NEB wc lc =>
        rw [assertionCmp] at h1 h2 ⊢
        exact natPairCmp_lt_trans h1 h2

theorem assertionCmp_eq_iff (a b : Assertion) : assertionCmp a b = .eq ↔ a = b := by
  cases a with
  | NEN wa la ca =>
    cases b with
    | NEB wb lb => rw [assertionCmp]; simp
    | NEN wb lb cb =>
      rw [assertionCmp, then_eq_eq_iff, then_eq_eq_iff, then_eq_eq_iff,
        Nat.compare_eq_eq, Nat.compare_eq_eq, Nat.compare_eq_eq]
      constructor
      · rintro ⟨hlen, ⟨hw, hl⟩, hcc⟩
        rw [compareContinuing_eq_iff ca cb hlen] at hcc
        rw [hw, hl, hcc]
      · rintro h
        injection h with hw hl hcc
        subst hw; subst hl; subst hcc
        refine ⟨rfl, ⟨rfl, rfl⟩, ?_⟩
        rw [compareContinuing_eq_iff ca ca rfl]
  | NEB wa la =>
    cases b with
    | NEN wb lb cb => rw [assertionCmp]; simp
    | NEB wb lb =>
      rw [assertionCmp, then_eq_eq_iff, Nat.compare_eq_eq, Nat.compare_eq_eq]
      constructor
      · rintro ⟨hw, hl⟩; rw [hw, hl]
      · rintro h; injection h with hw hl; subst hw; subst hl; exact ⟨rfl, rfl⟩

instance {D : Type} : IsTrans (AssertionAndDifficulty D) assertionLe := by
  constructor
  intro a b c hab hbc
  unfold assertionLe at *
  cases h1 : assertionCmp a.assertion b.assertion with
  | gt => exact absurd h1 hab
  | eq =>
    rw [assertionCmp_eq_iff] at h1
    rw [h1]
    exact hbc
  | lt =>
    cases h2 : assertionCmp b.assertion c.assertion with
    | gt => exact absurd h2 hbc
    | eq =>
      rw [assertionCmp_eq_iff] at h2
      rw [← h2]
      intro h; rw [h1] at h; cases h
    | lt =>
      intro h
      rw [assertionCmp_lt_trans h1 h2] at h
      cases h

instance {D : Type} : IsTotal (AssertionAndDifficulty D) assertionLe := by
  constructor
  intro a b
  unfold assertionLe
  cases h : assertionCmp a.assertion b.assertion with
  | lt => exact Or.inl (by intro hc; cases hc)
  | eq => exact Or.inl (by intro hc; cases hc)
  | gt =>
    right
    rw [assertionCmp_swap b.assertion a.assertion, h]
    intro hc
    cases hc

theorem sortAssertions_perm {D : Type} (l : List (AssertionAndDifficulty D)) :
    (sortAssertions l).Perm l :=
  List.perm_insertionSort assertionLe l

theorem sortAssertions_sorted {D : Type} (l : List (AssertionAndDifficulty D)) :
    List.Sorted assertionLe (sortAssertions l) :=
  List.sorted_insertionSort assertionLe l

theorem isNEB_iff (a : Assertion) : a.isNEB = true ↔ ∃ w l, a = .NEB w l := by
  cases a <;> simp [Assertion.isNEB]

theorem isNEN_iff (a : Assertion) : a.isNEN = true ↔ ∃ w l c, a = .NEN w l c := by
  cases a <;> simp [Assertion.isNEN]

/-- A NEB record never precedes a NEN record in any list ordered by the comparator. -/
theorem no_NEB_before_NEN_of_sorted {D : Type} {l : List (AssertionAndDifficulty D)}
    (h : List.Sorted assertionLe l) :
    List.Pairwise (fun a b : AssertionAndDifficulty D =>
      ¬(a.assertion.isNEB = true ∧ b.assertion.isNEN = true)) l := by
  refine h.imp ?_
  intro a b hab
  rintro ⟨hNEB, hNEN⟩
  apply hab
  obtain ⟨w1, l1, ha⟩ := (isNEB_iff _).mp hNEB
  obtain ⟨w2, l2, c2, hb⟩ := (isNEN_iff _).mp hNEN
  rw [ha, hb]
  rfl

/-- The driver's final list (on success the filtered list, on error the sorted list) is
always a sublist of the sorted list. -/
theorem driver_assertions_sublist {D : Type} (ev : Assertion → List Nat → Effect)
    (assertions : List (AssertionAndDifficulty D)) (w n : Nat) (f : Bool) :
    (order_assertions_and_remove_unnecessary ev assertions w n f).assertions.Sublist
      (sortAssertions assertions) := by
  cases h : (driverCheck ev assertions w n f).error with
  | some e =>
    rw [driver_eq_of_error ev assertions w n f e h]
  | none =>
    rw [driver_eq_of_none ev assertions w n f h]
    have h1 : (((sortAssertions assertions).enum.filter
        (fun p => uses (driverUsed ev assertions w n f) p.1)).map (fun p => p.2)).Sublist
        ((sortAssertions assertions).enum.map (fun p => p.2)) :=
      List.Sublist.map _ (List.filter_sublist _)
    have h2 : (sortAssertions assertions).enum.map (fun p => p.2)
        = sortAssertions assertions := List.enum_map_snd _
    rw [h2] at h1
    exact h1

/-! ## The selector passes -/

namespace SimplisticWorkOutWhichAssertionsAreUsed

open TreeNodeShowingWhatAssertionsPrunedIt

theorem uses_set (u : List Bool) (j i : Nat) :
    uses (u.set j true) i = true ↔ (uses u i = true ∨ (i = j ∧ j < u.length)) := by
  unfold uses
  rw [List.getD_eq_getElem?_getD, List.getD_eq_getElem?_getD, List.getElem?_set]
  by_cases hij : j = i
  · subst hij
    rw [if_pos rfl]
    by_cases hlen : j < u.length
    · rw [if_pos hlen]
      simp [hlen]
    · rw [if_neg hlen]
      simp only [Option.getD_none]
      constructor
      · intro h; cases h
      · rintro (h | ⟨-, hc⟩)
        · have : u[j]? = none := List.getElem?_eq_none (by omega)
          rw [this] at h
          exact h
        · exact absurd hc hlen
  · rw [if_neg hij]
    constructor
    · exact Or.inl
    · rintro (h | ⟨rfl, -⟩)
      · exact h
      · exact absurd rfl hij

mutual
theorem length_add_tree_forced (u : List Bool) (t : Tree) :
    (add_tree_forced u t).length = u.length := by
  cases t with
  | mk c p ch v =>
    rw [add_tree_forced]
    split
    · split
      · split
        · rw [List.length_set]
        · rfl
      · rfl
    · exact length_add_tree_forced_list u ch
theorem length_add_tree_forced_list (u : List Bool) (ts : List Tree) :
    (add_tree_forced_list u ts).length = u.length := by
  cases ts with
  | nil => rfl
  | cons t ts =>
    rw [add_tree_forced_list]
    rw [length_add_tree_forced_list (add_tree_forced u t) ts,
      length_add_tree_forced u t]
end

theorem forcedMark_mk_iff (i c : Nat) (p : List Nat) (ch : List Tree) (v : Bool) :
    ForcedMark i (.mk c p ch v)
      ↔ ((p = [i] ∧ ch = []) ∨ (p = [] ∧ ∃ t ∈ ch, ForcedMark i t)) := by
  constructor
  · intro h
    cases h with
    | here => exact Or.inl ⟨rfl, rfl⟩
    | deeper _ _ _ t ht hm => exact Or.inr ⟨rfl, t, ht, hm⟩
  · rintro (⟨rfl, rfl⟩ | ⟨rfl, t, ht, hm⟩)
    · exact ForcedMark.here c v
    · exact ForcedMark.deeper c ch v t ht hm

mutual
theorem add_tree_forced_uses (u : List Bool) (t : Tree) (i : Nat) :
    uses (add_tree_forced u t) i = true
      ↔ (uses u i = true ∨ (ForcedMark i t ∧ i < u.length)) := by
  cases t with
  | mk c p ch v =>
    rw [add_tree_forced, forcedMark_mk_iff]
    by_cases hp : p.length > 0
    · rw [if_pos hp]
      have hpne : p ≠ [] := by
        intro hnil; rw [hnil] at hp; simp at hp
      by_cases hch : ch.isEmpty
      · have hch' : ch = [] := List.isEmpty_iff.mp hch
        rw [if_pos hch]
        by_cases h1 : p.length == 1
        · rw [if_pos h1]
          obtain ⟨a, ha⟩ := List.length_eq_one.mp (by simpa using h1)
          have hget : p.getD 0 0 = a := by rw [ha]; rfl
          rw [hget, uses_set]
          constructor
          · rintro (h | ⟨rfl, hlen⟩)
            · exact Or.inl h
            · exact Or.inr ⟨Or.inl ⟨by rw [ha], hch'⟩, hlen⟩
          · rintro (h | ⟨(⟨hpi, -⟩ | ⟨hpnil, -⟩), hlen⟩)
            · exact Or.inl h
            · rw [ha] at hpi
              injection hpi with hai
              exact Or.inr ⟨hai.symm, by rw [hai]; exact hlen⟩
            · exact absurd hpnil hpne
        · rw [if_neg h1]
          constructor
          · exact Or.inl
          · rintro (h | ⟨(⟨hpi, -⟩ | ⟨hpnil, -⟩), hlen⟩)
            · exact h
            · rw [hpi] at h1; simp at h1
            · exact absurd hpnil hpne
      · rw [if_neg hch]
        have hch' : ch ≠ [] := by
          intro hnil; rw [hnil] at hch; simp at hch
        constructor
        · exact Or.inl
        · rintro (h | ⟨(⟨-, hchnil⟩ | ⟨hpnil, -⟩), hlen⟩)
          · exact h
          · exact absurd hchnil hch'
          · exact absurd hpnil hpne
    · have hp' : p = [] := by
        cases p with
        | nil => rfl
        | cons a as => simp at hp
      rw [if_neg hp, add_tree_forced_list_uses u ch i]
      subst hp'
      constructor
      · rintro (h | ⟨t, ht, hm, hlen⟩)
        · exact Or.inl h
        · exact Or.inr ⟨Or.inr ⟨rfl, t, ht, hm⟩, hlen⟩
      · rintro (h | ⟨(⟨hpi, -⟩ | ⟨-, t, ht, hm⟩), hlen⟩)
        · exact Or.inl h
        · cases hpi
        · exact Or.inr ⟨t, ht, hm, hlen⟩
theorem add_tree_forced_list_uses (u : List Bool) (ts : List Tree) (i : Nat) :
    uses (add_tree_forced_list u ts) i = true
      ↔ (uses u i = true ∨ ∃ t ∈ ts, ForcedMark i t ∧ i < u.length) := by
  cases ts with
  | nil => simp [add_tree_forced_list]
  | cons t ts =>
    rw [add_tree_forced_list, add_tree_forced_list_uses (add_tree_forced u t) ts i,
      add_tree_forced_uses u t i, length_add_tree_forced u t]
    constructor
    · rintro ((h | ⟨hm, hlen⟩) | ⟨t', ht', hm', hlen⟩)
      · exact Or.inl h
      · exact Or.inr ⟨t, by simp, hm, hlen⟩
      · exact Or.inr ⟨t', by simp [ht'], hm', hlen⟩
    · rintro (h | ⟨t', ht', hm', hlen⟩)
      · exact Or.inl (Or.inl h)
      · rcases List.mem_cons.mp ht' with rfl | ht'
        · exact Or.inl (Or.inr ⟨hm', hlen⟩)
        · exact Or.inr ⟨t', ht', hm', hlen⟩
end

theorem node_already_eliminated_all_iff (u : List Bool) (ts : List Tree) :
    node_already_eliminated_all u ts = true
      ↔ ∀ t ∈ ts, node_already_eliminated u t = true := by
  induction ts with
  | nil => simp [node_already_eliminated_all]
  | cons t ts ih =>
    rw [node_already_eliminated_all, Bool.and_eq_true, ih]
    simp

/-- The already-eliminated check, characterized as the claim states it: one of the
node's own pruning indices is marked, or there is at least one child and every child is
already eliminated. -/
theorem node_already_eliminated_iff (u : List Bool) (t : Tree) :
    node_already_eliminated u t = true
      ↔ ((∃ i ∈ t.pruning_assertions, uses u i = true)
          ∨ (t.children ≠ []
              ∧ ∀ c ∈ t.children, node_already_eliminated u c = true)) := by
  cases t with
  | mk c p ch v =>
    rw [node_already_eliminated, Bool.or_eq_true, Bool.and_eq_true,
      node_already_eliminated_all_iff, List.any_eq_true]
    simp only [pruning_mk, children_mk]
    constructor
    · rintro (h | ⟨hlen, hall⟩)
      · exact Or.inl h
      · refine Or.inr ⟨?_, hall⟩
        intro hnil
        rw [hnil] at hlen
        simp at hlen
    · rintro (h | ⟨hne, hall⟩)
      · exact Or.inl h
      · refine Or.inr ⟨?_, hall⟩
        simpa using hne

/-- The greedy pass, characterized as the claim states it: at a pruned node, mark the
first pruning index unless the node is already eliminated; at an unpruned node, visit
the children in order. -/
theorem add_tree_second_pass_eq (u : List Bool) (t : Tree) :
    add_tree_second_pass u t
      = (if t.pruning_assertions ≠ [] then
          (if node_already_eliminated u t = true then u
           else u.set (t.pruning_assertions.getD 0 0) true)
        else add_tree_second_pass_list u t.children) := by
  cases t with
  | mk c p ch v =>
    rw [add_tree_second_pass]
    simp only [pruning_mk, children_mk]
    by_cases hp : p.length > 0
    · rw [if_pos hp,
        if_pos (show p ≠ [] by intro hnil; rw [hnil] at hp; simp at hp)]
    · have hp' : p = [] := by
        cases p with
        | nil => rfl
        | cons a as => simp at hp
      rw [if_neg hp, if_neg (show ¬p ≠ [] by rw [hp']; simp)]

end SimplisticWorkOutWhichAssertionsAreUsed

open SimplisticWorkOutWhichAssertionsAreUsed in
/-- C6: one forced pass marks exactly the already-marked indices plus the in-bounds
indices that are the single member of the pruning set of a childless node reachable
through ancestors with empty pruning sets (`ForcedMark`); pruned nodes with children or
with more than one pruning assertion mark nothing and are not descended into. -/
theorem C6_forced_pass_marks_exactly_forced_singletons :
    ∀ (u : List Bool) (t : Tree) (i : Nat),
      uses (add_tree_forced u t) i = true
        ↔ (uses u i = true ∨ (ForcedMark i t ∧ i < u.length)) := by
  exact add_tree_forced_uses

open SimplisticWorkOutWhichAssertionsAreUsed in
/-- C7: the greedy pass at a pruned node marks the first pruning index unless the node
is already eliminated, recursing only below unpruned nodes; and a node is already
eliminated exactly when one of its own pruning indices is currently marked, or it has
at least one child and all children are already eliminated (so a childless node with no
marked pruning assertion never counts as eliminated). -/
theorem C7_greedy_pass_and_already_eliminated :
    ∀ (u : List Bool) (t : Tree),
      add_tree_second_pass u t
        = (if t.pruning_assertions ≠ [] then
            (if node_already_eliminated u t = true then u
             else u.set (t.pruning_assertions.getD 0 0) true)
          else add_tree_second_pass_list u t.children)
      ∧ (node_already_eliminated u t = true
          ↔ ((∃ i ∈ t.pruning_assertions, uses u i = true)
              ∨ (t.children ≠ []
                  ∧ ∀ c ∈ t.children, node_already_eliminated u c = true))) := by
  intro u t
  exact ⟨add_tree_second_pass_eq u t, node_already_eliminated_iff u t⟩

/-! ## Output characterization -/

namespace SimplisticWorkOutWhichAssertionsAreUsed

mutual
theorem add_tree_forced_out_shape (t : Tree) :
    ∀ s ∈ add_tree_forced_out t, (∃ k : Nat, s = toString k) ∨ s = "*" := by
  cases t with
  | mk c p ch v =>
    intro s hs
    rw [add_tree_forced_out] at hs
    split at hs
    · rcases List.mem_cons.mp hs with rfl | hs
      · exact Or.inl ⟨p.length, rfl⟩
      · split at hs
        · simp at hs
        · rcases List.mem_singleton.mp hs with rfl
          exact Or.inr rfl
    · exact add_tree_forced_out_list_shape ch s hs
theorem add_tree_forced_out_list_shape (ts : List Tree) :
    ∀ s ∈ add_tree_forced_out_list ts, (∃ k : Nat, s = toString k) ∨ s = "*" := by
  cases ts with
  | nil => intro s hs; simp [add_tree_forced_out_list] at hs
  | cons t ts =>
    intro s hs
    rw [add_tree_forced_out_list] at hs
    rcases List.mem_append.mp hs with hs | hs
    · exact add_tree_forced_out_shape t s hs
    · exact add_tree_forced_out_list_shape ts s hs
end

mutual
theorem add_tree_second_pass_out_shape (t : Tree) :
    ∀ s ∈ add_tree_second_pass_out t, ∃ k : Nat, s = toString k := by
  cases t with
  | mk c p ch v =>
    intro s hs
    rw [add_tree_second_pass_out] at hs
    split at hs
    · rcases List.mem_singleton.mp hs with rfl
      exact ⟨p.length, rfl⟩
    · exact add_tree_second_pass_out_list_shape ch s hs
theorem add_tree_second_pass_out_list_shape (ts : List Tree) :
    ∀ s ∈ add_tree_second_pass_out_list ts, ∃ k : Nat, s = toString k := by
  cases ts with
  | nil => intro s hs; simp [add_tree_second_pass_out_list] at hs
  | cons t ts =>
    intro s hs
    rw [add_tree_second_pass_out_list] at hs
    rcases List.mem_append.mp hs with hs | hs
    · exact add_tree_second_pass_out_shape t s hs
    · exact add_tree_second_pass_out_list_shape ts s hs
end

end SimplisticWorkOutWhichAssertionsAreUsed

/-- Every fragment the loop appends to the output accumulator comes from a forced pass
over some tree. -/
theorem processCandidates_out_structure (ev : Assertion → List Nat → Effect)
    (A : List Assertion) (w : Nat) (n : Nat) (f : Bool) :
    ∀ (cs : List Nat) (u : List Bool) (trees : List Tree) (out : List String),
      ∃ ts : List Tree, (processCandidates ev A w n f u trees out cs).out
        = out ++ (ts.map add_tree_forced_out).flatten := by
  intro cs
  induction cs with
  | nil =>
    intro u trees out
    exact ⟨[], by simp [processCandidates]⟩
  | cons c cs ih =>
    intro u trees out
    rw [processCandidates]
    split
    · exact ⟨[], by simp⟩
    · split
      · exact ih u trees out
      · obtain ⟨ts, hts⟩ := ih (add_tree_forced u (candidateTree ev A n f c))
          (trees ++ [candidateTree ev A n f c])
          (out ++ add_tree_forced_out (candidateTree ev A n f c))
        refine ⟨candidateTree ev A n f c :: ts, ?_⟩
        rw [hts, List.map_cons, List.flatten_cons, List.append_assoc]

/-- On a violation-free candidate range the loop state is fully determined: no error,
the forced pass folded over the non-winner trees, those trees collected in ascending
candidate order, and their forced-pass fragments as output. -/
theorem driverCheck_of_no_violation {D : Type} (ev : Assertion → List Nat → Effect)
    (assertions : List (AssertionAndDifficulty D)) (w n : Nat) (f : Bool)
    (h : ∀ c, c < n →
      (candidateTree ev ((sortAssertions assertions).map (·.assertion)) n f c).valid
        = (c == w)) :
    driverCheck ev assertions w n f
      = ⟨none,
         ((List.range n).filter (fun c => !(c == w))).foldl
           (fun u' c => add_tree_forced u'
             (candidateTree ev ((sortAssertions assertions).map (·.assertion)) n f c))
           (mkUsed ((sortAssertions assertions).map (·.assertion)).length),
         ((List.range n).filter (fun c => !(c == w))).map
           (candidateTree ev ((sortAssertions assertions).map (·.assertion)) n f),
         (((List.range n).filter (fun c => !(c == w))).map
           (fun c => add_tree_forced_out
             (candidateTree ev ((sortAssertions assertions).map (·.assertion)) n f c))).flatten⟩ := by
  unfold driverCheck
  rw [processCandidates_none ev ((sortAssertions assertions).map (·.assertion)) w n f
    (List.range n) _ [] [] (fun c hc => h c (List.mem_range.mp hc))]
  rfl

open SimplisticWorkOutWhichAssertionsAreUsed in
/-- C8 (amended): tree construction writes nothing, but both selector passes print the
pruning-set size of every visited pruned node (and the forced pass an asterisk under
extended pruned nodes with children).  On success the output is exactly the forced-pass
fragments of the non-winner trees, then their second-pass fragments, then one line of
the literal shape `" Trimmed " ++ original count ++ " assertions down to " ++ final
count`; on the error path the output consists only of number and asterisk fragments
from the forced passes run before the abort — in particular no `Trimmed` line. -/
theorem C8_output_amended_characterization :
    ∀ {D : Type} (ev : Assertion → List Nat → Effect)
      (assertions : List (AssertionAndDifficulty D)) (w n : Nat) (f : Bool),
      ((order_assertions_and_remove_unnecessary ev assertions w n f).result = none →
        (order_assertions_and_remove_unnecessary ev assertions w n f).output
          = ((driverCheck ev assertions w n f).trees.map add_tree_forced_out).flatten
            ++ ((driverCheck ev assertions w n f).trees.map add_tree_second_pass_out).flatten
            ++ [" Trimmed " ++ toString (sortAssertions assertions).length
                ++ " assertions down to "
                ++ toString
                  (order_assertions_and_remove_unnecessary ev assertions w n f).assertions.length])
      ∧ (∀ e, (order_assertions_and_remove_unnecessary ev assertions w n f).result = some e →
          ∀ s ∈ (order_assertions_and_remove_unnecessary ev assertions w n f).output,
            (∃ k : Nat, s = toString k) ∨ s = "*")
      ∧ (∀ t : Tree, ∀ s ∈ add_tree_forced_out t, (∃ k : Nat, s = toString k) ∨ s = "*")
      ∧ (∀ t : Tree, ∀ s ∈ add_tree_second_pass_out t, ∃ k : Nat, s = toString k) := by
  intro D ev assertions w n f
  refine ⟨?_, ?_, add_tree_forced_out_shape, add_tree_second_pass_out_shape⟩
  · intro hnone
    rw [driver_result_eq] at hnone
    have hviol := (processCandidates_range' ev
      ((sortAssertions assertions).map (·.assertion)) w n f n 0
      (mkUsed ((sortAssertions assertions).map (·.assertion)).length) [] []).1
    rw [← List.range_eq_range'] at hviol
    have hall : ∀ c, c < n →
        (candidateTree ev ((sortAssertions assertions).map (·.assertion)) n f c).valid
          = (c == w) := by
      intro c hc
      exact (hviol.mp (by exact hnone)) c (Nat.zero_le c) (by omega)
    have hco := driverCheck_of_no_violation ev assertions w n f hall
    rw [driver_eq_of_none ev assertions w n f (by rw [hco])]
    simp only [hco, List.map_map, List.length_map, Function.comp_def]
  · intro e he s hs
    rw [driver_result_eq] at he
    rw [driver_eq_of_error ev assertions w n f e he] at hs
    obtain ⟨ts, hts⟩ := processCandidates_out_structure ev
      ((sortAssertions assertions).map (·.assertion)) w n f (List.range n)
      (mkUsed ((sortAssertions assertions).map (·.assertion)).length) [] []
    have hout : (driverCheck ev assertions w n f).out
        = (ts.map add_tree_forced_out).flatten := by
      unfold driverCheck
      rw [hts]
      rfl
    rw [hout] at hs
    obtain ⟨x, hx, hsx⟩ := List.mem_flatten.mp hs
    obtain ⟨t, -, rfl⟩ := List.mem_map.mp hx
    exact add_tree_forced_out_shape t s hsx

/-- C8 (counterexample): on the one-assertion input `[NEB 0 1]` with winner 0 among two
candidates, the successful run prints the two selector-pass fragments "1" before the
Trimmed line, so the output is not the single diagnostic line the claim asserts. -/
theorem C8_output_counterexample :
    (order_assertions_and_remove_unnecessary Assertion.ok_elimination_order_suffix
        [⟨Assertion.NEB 0 1, 0⟩] 0 2 false : DriverResult Nat).result = none
    ∧ (order_assertions_and_remove_unnecessary Assertion.ok_elimination_order_suffix
        [⟨Assertion.NEB 0 1, 0⟩] 0 2 false : DriverResult Nat).output
      = ["1", "1", " Trimmed 1 assertions down to 1"]
    ∧ (order_assertions_and_remove_unnecessary Assertion.ok_elimination_order_suffix
        [⟨Assertion.NEB 0 1, 0⟩] 0 2 false : DriverResult Nat).output
      ≠ [" Trimmed 1 assertions down to 1"] := by
  refine ⟨by decide, by decide, by decide⟩

/-- C3: the driver's sort produces a permutation of the input ordered ascending by the
translated comparator (`assertionCmp`: NENs before NEBs; NENs by continuing length,
winner, loser, then elementwise continuing; NEBs by winner then loser), and in the
driver's final list a NEB record is never followed by a NEN record. -/
theorem C3_sort_comparator_and_order :
    ∀ {D : Type} (ev : Assertion → List Nat → Effect)
      (assertions : List (AssertionAndDifficulty D)) (w n : Nat) (f : Bool),
      (sortAssertions assertions).Perm assertions
      ∧ List.Sorted assertionLe (sortAssertions assertions)
      ∧ List.Pairwise (fun a b : AssertionAndDifficulty D =>
          ¬(a.assertion.isNEB = true ∧ b.assertion.isNEN = true))
          (order_assertions_and_remove_unnecessary ev assertions w n f).assertions := by
  intro D ev assertions w n f
  refine ⟨sortAssertions_perm assertions, sortAssertions_sorted assertions, ?_⟩
  exact List.Pairwise.sublist (driver_assertions_sublist ev assertions w n f)
    (no_NEB_before_NEN_of_sorted (sortAssertions_sorted assertions))

/-! ## Minimization soundness: tree lemmas -/

namespace TreeNodeShowingWhatAssertionsPrunedIt

theorem pruningOf_filter (ev : Assertion → List Nat → Effect) (A : List Assertion)
    (rel : List Nat) (q : Nat → Bool) (s : List Nat) :
    pruningOf ev A (rel.filter q) s = (pruningOf ev A rel s).filter q := by
  unfold pruningOf
  rw [List.filter_filter, List.filter_filter]
  exact List.filter_congr (fun i _ => Bool.and_comm _ _)

theorem stillOf_filter (ev : Assertion → List Nat → Effect) (A : List Assertion)
    (rel : List Nat) (q : Nat → Bool) (s : List Nat) :
    stillOf ev A (rel.filter q) s = (stillOf ev A rel s).filter q := by
  unfold stillOf
  rw [List.filter_filter, List.filter_filter]
  exact List.filter_congr (fun i _ => Bool.and_comm _ _)

theorem new_pruning_empty_of_valid (ev : Assertion → List Nat → Effect) (ps : List Nat)
    (c : Nat) (rel : List Nat) (A : List Assertion) (n : Nat) (f : Bool)
    (hvalid : (new ev ps c rel A n f).valid = true) :
    pruningOf ev A rel (c :: ps) = [] := by
  by_contra hne
  rw [new_valid_false_of_pruning_ne ev ps c rel A n f hne] at hvalid
  cases hvalid

/-- Validity survives dropping assertions: a valid node stays valid when the relevant
index set is filtered down. -/
theorem new_valid_mono (ev : Assertion → List Nat → Effect) (A : List Assertion)
    (n : Nat) (q : Nat → Bool) (ps : List Nat) (c : Nat) (rel : List Nat) (f : Bool)
    (hvalid : (new ev ps c rel A n f).valid = true) :
    (new ev ps c (rel.filter q) A n f).valid = true := by
  have hP : pruningOf ev A rel (c :: ps) = [] :=
    new_pruning_empty_of_valid ev ps c rel A n f hvalid
  have hP' : pruningOf ev A (rel.filter q) (c :: ps) = [] := by
    rw [pruningOf_filter, hP]
    rfl
  rw [new_eq_of_pruning_empty ev ps c rel A n f hP] at hvalid
  rw [new_eq_of_pruning_empty ev ps c (rel.filter q) A n f hP', stillOf_filter]
  by_cases hT' : ((stillOf ev A rel (c :: ps)).filter q).isEmpty
  · rw [if_pos hT']
    rfl
  · rw [if_neg hT']
    simp only [valid_mk]
    by_cases hT : (stillOf ev A rel (c :: ps)).isEmpty
    · exfalso
      apply hT'
      rw [List.isEmpty_iff] at hT ⊢
      rw [hT]
      rfl
    · rw [if_neg hT] at hvalid
      simp only [valid_mk] at hvalid
      rw [List.any_eq_true] at hvalid ⊢
      obtain ⟨t, ht, htv⟩ := hvalid
      obtain ⟨d, hd, rfl⟩ := List.mem_map.mp ht
      exact ⟨new ev (c :: ps) d ((stillOf ev A rel (c :: ps)).filter q) A n f,
        List.mem_map.mpr ⟨d, hd, rfl⟩,
        new_valid_mono ev A n q (c :: ps) d (stillOf ev A rel (c :: ps)) f htv⟩
termination_by (remainingCandidates n (c :: ps)).length
decreasing_by
  exact remainingCandidates_cons_length_lt n (c :: ps) d hd

end TreeNodeShowingWhatAssertionsPrunedIt

theorem AllNodes.self {pr : Tree → Prop} {t : Tree} (h : AllNodes pr t) : pr t := by
  cases h; assumption

theorem AllNodes.child {pr : Tree → Prop} {t : Tree} (h : AllNodes pr t) :
    ∀ u ∈ t.children, AllNodes pr u := by
  cases h; assumption

theorem allNodes_imp {p q : Tree → Prop} (h : ∀ t, p t → q t) :
    ∀ {t : Tree}, AllNodes p t → AllNodes q t := by
  intro t hall
  induction hall with
  | intro t hself hch ih => exact ⟨t, h t hself, ih⟩

namespace TreeNodeShowingWhatAssertionsPrunedIt

/-- Every pruning index anywhere in a constructed tree comes from the relevant set the
root was given. -/
theorem allNodes_pruning_sub (ev : Assertion → List Nat → Effect) (A : List Assertion)
    (n : Nat) (ps : List Nat) (c : Nat) (rel : List Nat) (f : Bool) :
    AllNodes (fun t => ∀ i ∈ t.pruning_assertions, i ∈ rel) (new ev ps c rel A n f) := by
  refine ⟨_, ?_, ?_⟩
  · intro i hi
    rw [new_pruning] at hi
    exact List.mem_of_mem_filter hi
  · intro u hu
    obtain ⟨d, hd, hcase⟩ := new_children_mem ev ps c rel A n f u hu
    have hsub : ∀ t : Tree,
        (∀ i ∈ t.pruning_assertions, i ∈ stillOf ev A rel (c :: ps)) →
        (∀ i ∈ t.pruning_assertions, i ∈ rel) :=
      fun t h i hi => List.mem_of_mem_filter (h i hi)
    rcases hcase with rfl | rfl <;>
      exact allNodes_imp hsub
        (allNodes_pruning_sub ev A n (c :: ps) d (stillOf ev A rel (c :: ps)) _)
termination_by (remainingCandidates n (c :: ps)).length
decreasing_by
  all_goals exact remainingCandidates_cons_length_lt n (c :: ps) d hd

end TreeNodeShowingWhatAssertionsPrunedIt

theorem mem_prunings_of_allNodes {P : Nat → Prop} {i : Nat} :
    ∀ {t : Tree}, AllNodes (fun nd => ∀ j ∈ nd.pruning_assertions, P j) t →
      MemPrunings i t → P i := by
  intro t hall hmem
  induction hmem with
  | self t hi => exact hall.self i hi
  | child t u hu hmem ih => exact ih (hall.child u hu)

/-! ## Minimization soundness: selector lemmas -/

namespace SimplisticWorkOutWhichAssertionsAreUsed

theorem getD_zero_mem {p : List Nat} (hp : p ≠ []) : p.getD 0 0 ∈ p := by
  cases p with
  | nil => exact absurd rfl hp
  | cons a as => simp

mutual
theorem length_add_tree_second_pass (u : List Bool) (t : Tree) :
    (add_tree_second_pass u t).length = u.length := by
  cases t with
  | mk c p ch v =>
    rw [add_tree_second_pass]
    split
    · split
      · rfl
      · rw [List.length_set]
    · exact length_add_tree_second_pass_list u ch
theorem length_add_tree_second_pass_list (u : List Bool) (ts : List Tree) :
    (add_tree_second_pass_list u ts).length = u.length := by
  cases ts with
  | nil => rfl
  | cons t ts =>
    rw [add_tree_second_pass_list, length_add_tree_second_pass_list _ ts,
      length_add_tree_second_pass u t]
end

mutual
theorem uses_mono_add_tree_second_pass (u : List Bool) (t : Tree) (i : Nat)
    (h : uses u i = true) : uses (add_tree_second_pass u t) i = true := by
  cases t with
  | mk c p ch v =>
    rw [add_tree_second_pass]
    split
    · split
      · exact h
      · exact (uses_set u _ i).mpr (Or.inl h)
    · exact uses_mono_add_tree_second_pass_list u ch i h
theorem uses_mono_add_tree_second_pass_list (u : List Bool) (ts : List Tree) (i : Nat)
    (h : uses u i = true) : uses (add_tree_second_pass_list u ts) i = true := by
  cases ts with
  | nil => exact h
  | cons t ts =>
    rw [add_tree_second_pass_list]
    exact uses_mono_add_tree_second_pass_list _ ts i
      (uses_mono_add_tree_second_pass u t i h)
end

mutual
theorem node_already_eliminated_mono (u u' : List Bool)
    (hmono : ∀ i, uses u i = true → uses u' i = true) (t : Tree)
    (h : node_already_eliminated u t = true) : node_already_eliminated u' t = true := by
  cases t with
  | mk c p ch v =>
    rw [node_already_eliminated] at h ⊢
    rw [Bool.or_eq_true] at h ⊢
    rcases h with h | h
    · left
      rw [List.any_eq_true] at h ⊢
      obtain ⟨j, hj, hjuse⟩ := h
      exact ⟨j, hj, hmono j hjuse⟩
    · right
      rw [Bool.and_eq_true] at h ⊢
      exact ⟨h.1, node_already_eliminated_all_mono u u' hmono ch h.2⟩
theorem node_already_eliminated_all_mono (u u' : List Bool)
    (hmono : ∀ i, uses u i = true → uses u' i = true) (ts : List Tree)
    (h : node_already_eliminated_all u ts = true) :
    node_already_eliminated_all u' ts = true := by
  cases ts with
  | nil => rfl
  | cons t ts =>
    rw [node_already_eliminated_all, Bool.and_eq_true] at h ⊢
    exact ⟨node_already_eliminated_mono u u' hmono t h.1,
      node_already_eliminated_all_mono u u' hmono ts h.2⟩
end

mutual
/-- An already-eliminated node contains a marked index in some pruning set of its
subtree. -/
theorem node_already_eliminated_exists_mark (u : List Bool) (t : Tree)
    (h : node_already_eliminated u t = true) :
    ∃ i, uses u i = true ∧ MemPrunings i t := by
  cases t with
  | mk c p ch v =>
    rw [node_already_eliminated, Bool.or_eq_true] at h
    rcases h with h | h
    · rw [List.any_eq_true] at h
      obtain ⟨j, hj, hjuse⟩ := h
      exact ⟨j, hjuse, MemPrunings.self _ (by simpa using hj)⟩
    · rw [Bool.and_eq_true] at h
      obtain ⟨hlen, hall⟩ := h
      cases ch with
      | nil => simp at hlen
      | cons t0 ts =>
        rw [node_already_eliminated_all, Bool.and_eq_true] at hall
        obtain ⟨i, hiuse, himem⟩ := node_already_eliminated_exists_mark u t0 hall.1
        exact ⟨i, hiuse, MemPrunings.child _ t0 (by simp) himem⟩
theorem node_already_eliminated_all_unused (_u : List Bool) (_ts : List Tree) : True :=
  trivial
end

mutual
/-- Being already eliminated implies being covered. -/
theorem covered_of_node_already_eliminated (u : List Bool) (t : Tree)
    (h : node_already_eliminated u t = true) : Covered u t := by
  cases t with
  | mk c p ch v =>
    by_cases hp : p = []
    · subst hp
      refine Covered.unpruned _ rfl ?_
      rw [node_already_eliminated, Bool.or_eq_true] at h
      rcases h with h | h
      · simp [uses] at h
      · rw [Bool.and_eq_true] at h
        exact fun c' hc' =>
          covered_of_node_already_eliminated_all u ch h.2 c' hc'
    · exact Covered.pruned _ (by simpa using hp) h
theorem covered_of_node_already_eliminated_all (u : List Bool) (ts : List Tree)
    (h : node_already_eliminated_all u ts = true) :
    ∀ t ∈ ts, Covered u t := by
  cases ts with
  | nil => intro t ht; simp at ht
  | cons t0 ts =>
    rw [node_already_eliminated_all, Bool.and_eq_true] at h
    intro t ht
    rcases List.mem_cons.mp ht with rfl | ht
    · exact covered_of_node_already_eliminated u t h.1
    · exact covered_of_node_already_eliminated_all u ts h.2 t ht
end

theorem covered_mono {u u' : List Bool}
    (hmono : ∀ i, uses u i = true → uses u' i = true) {t : Tree}
    (h : Covered u t) : Covered u' t := by
  induction h with
  | pruned t hp helim =>
    exact Covered.pruned t hp (node_already_eliminated_mono u u' hmono t helim)
  | unpruned t hp hch ih => exact Covered.unpruned t hp ih

mutual
/-- One greedy pass over a tree leaves that tree covered by the resulting marking. -/
theorem second_pass_establishes (u : List Bool) (t : Tree)
    (hb : AllNodes (fun nd => ∀ i ∈ nd.pruning_assertions, i < u.length) t) :
    Covered (add_tree_second_pass u t) t := by
  cases t with
  | mk c p ch v =>
    rw [add_tree_second_pass]
    by_cases hp : p.length > 0
    · rw [if_pos hp]
      have hpne : p ≠ [] := by intro hnil; rw [hnil] at hp; simp at hp
      by_cases helim :
          node_already_eliminated u (TreeNodeShowingWhatAssertionsPrunedIt.mk c p ch v) = true
      · rw [if_pos helim]
        exact Covered.pruned _ (by simpa using hpne) helim
      · rw [if_neg helim]
        refine Covered.pruned _ (by simpa using hpne) ?_
        rw [node_already_eliminated, Bool.or_eq_true]
        left
        rw [List.any_eq_true]
        refine ⟨p.getD 0 0, getD_zero_mem hpne, ?_⟩
        rw [uses_set]
        exact Or.inr ⟨rfl, hb.self _ (by simpa using getD_zero_mem hpne)⟩
    · rw [if_neg hp]
      have hp' : p = [] := by
        cases p with
        | nil => rfl
        | cons a as => simp at hp
      subst hp'
      refine Covered.unpruned _ rfl ?_
      intro c' hc'
      exact second_pass_list_establishes u ch
        (fun t' ht' => hb.child t' (by simpa using ht')) c' (by simpa using hc')
/-- One greedy pass over a list of trees leaves every member covered. -/
theorem second_pass_list_establishes (u : List Bool) (ts : List Tree)
    (hb : ∀ t ∈ ts, AllNodes (fun nd => ∀ i ∈ nd.pruning_assertions, i < u.length) t) :
    ∀ t ∈ ts, Covered (add_tree_second_pass_list u ts) t := by
  cases ts with
  | nil => intro t ht; simp at ht
  | cons t0 ts =>
    intro t ht
    rw [add_tree_second_pass_list]
    rcases List.mem_cons.mp ht with rfl | ht
    · refine covered_mono ?_ (second_pass_establishes u t (hb t (by simp)))
      intro i
      exact uses_mono_add_tree_second_pass_list _ ts i
    · refine second_pass_list_establishes (add_tree_second_pass u t0) ts ?_ t ht
      intro t' ht'
      rw [length_add_tree_second_pass u t0]
      exact hb t' (by simp [ht'])
end

theorem uses_mono_foldl_second_pass (ts : List Tree) :
    ∀ (u : List Bool) (i : Nat), uses u i = true →
      uses (ts.foldl add_tree_second_pass u) i = true := by
  induction ts with
  | nil => intro u i h; exact h
  | cons t ts ih =>
    intro u i h
    rw [List.foldl_cons]
    exact ih _ i (uses_mono_add_tree_second_pass u t i h)

theorem length_foldl_second_pass (ts : List Tree) :
    ∀ u : List Bool, (ts.foldl add_tree_second_pass u).length = u.length := by
  induction ts with
  | nil => intro u; rfl
  | cons t ts ih =>
    intro u
    rw [List.foldl_cons, ih, length_add_tree_second_pass]

/-- After folding the greedy pass over a list of trees, every tree of the list is
covered by the final marking. -/
theorem foldl_second_pass_covers (ts : List Tree) :
    ∀ (u : List Bool),
      (∀ t ∈ ts, AllNodes (fun nd => ∀ i ∈ nd.pruning_assertions, i < u.length) t) →
      ∀ t ∈ ts, Covered (ts.foldl add_tree_second_pass u) t := by
  induction ts with
  | nil => intro u _ t ht; simp at ht
  | cons t0 ts ih =>
    intro u hb t ht
    rw [List.foldl_cons]
    rcases List.mem_cons.mp ht with rfl | ht
    · refine covered_mono ?_ (second_pass_establishes u t (hb t (by simp)))
      intro i
      exact uses_mono_foldl_second_pass ts _ i
    · refine ih (add_tree_second_pass u t0) ?_ t ht
      intro t' ht'
      rw [length_add_tree_second_pass u t0]
      exact hb t' (by simp [ht'])

end SimplisticWorkOutWhichAssertionsAreUsed

theorem covered_elim_of_pruning_ne {u : List Bool} {t : Tree}
    (h : Covered u t) (hp : t.pruning_assertions ≠ []) :
    SimplisticWorkOutWhichAssertionsAreUsed.node_already_eliminated u t = true := by
  cases h with
  | pruned t h1 h2 => exact h2
  | unpruned t h1 h2 => exact absurd h1 hp

theorem covered_children_of_pruning_empty {u : List Bool} {t : Tree}
    (h : Covered u t) (hp : t.pruning_assertions = []) :
    ∀ c ∈ t.children, Covered u c := by
  cases h with
  | pruned t h1 h2 => exact absurd hp h1
  | unpruned t h1 h2 => exact h2

open TreeNodeShowingWhatAssertionsPrunedIt SimplisticWorkOutWhichAssertionsAreUsed in
/-- Core of the minimization-soundness argument: when an invalid constructed node is
covered by the marking `u`, and no relevant assertion can still need more detail at a
suffix containing every candidate below `n`, the node rebuilt from only the marked
relevant indices (under any flag) is again invalid, and some relevant index is
marked. -/
theorem filtered_invalid (ev : Assertion → List Nat → Effect) (A : List Assertion)
    (n : Nat) (u : List Bool) (ps : List Nat) (c : Nat) (rel : List Nat) (f g : Bool)
    (hfs : ∀ i ∈ rel, ∀ s' : List Nat, (∀ x, x < n → x ∈ s') →
      ev (A.getD i dfltAssertion) s' ≠ .NeedsMoreDetail)
    (hinv : (new ev ps c rel A n f).valid = false)
    (hcov : Covered u (new ev ps c rel A n f)) :
    (new ev ps c (rel.filter (fun i => uses u i)) A n g).valid = false
    ∧ ∃ i ∈ rel, uses u i = true := by
  by_cases hP : pruningOf ev A rel (c :: ps) = []
  · -- the node is unpruned: its still set is non-empty and every child is invalid
    have hP' : pruningOf ev A (rel.filter (fun i => uses u i)) (c :: ps) = [] := by
      rw [pruningOf_filter, hP]
      rfl
    have hchcov := covered_children_of_pruning_empty hcov (by rw [new_pruning]; exact hP)
    rw [new_eq_of_pruning_empty ev ps c rel A n f hP] at hinv hchcov
    by_cases hS : (stillOf ev A rel (c :: ps)).isEmpty = true
    · rw [if_pos hS] at hinv
      simp at hinv
    · rw [if_neg hS] at hinv hchcov
      simp only [valid_mk] at hinv
      have hSne : stillOf ev A rel (c :: ps) ≠ [] := by
        intro h0
        rw [h0] at hS
        exact hS rfl
      have hcovch : ∀ d ∈ remainingCandidates n (c :: ps),
          Covered u (new ev (c :: ps) d (stillOf ev A rel (c :: ps)) A n f) := by
        intro d hd
        exact hchcov _ (by simp only [children_mk]; exact List.mem_map.mpr ⟨d, hd, rfl⟩)
      have hinvch : ∀ d ∈ remainingCandidates n (c :: ps),
          (new ev (c :: ps) d (stillOf ev A rel (c :: ps)) A n f).valid = false := by
        intro d hd
        have := List.any_eq_false.mp hinv _ (List.mem_map.mpr ⟨d, hd, rfl⟩)
        simpa using this
      have hfsS : ∀ i ∈ stillOf ev A rel (c :: ps), ∀ s' : List Nat,
          (∀ x, x < n → x ∈ s') → ev (A.getD i dfltAssertion) s' ≠ .NeedsMoreDetail :=
        fun i hi => hfs i (List.mem_of_mem_filter hi)
      cases hrem : remainingCandidates n (c :: ps) with
      | nil =>
        exfalso
        obtain ⟨i, hi⟩ := List.exists_mem_of_ne_nil _ hSne
        have hnmd : ev (A.getD i dfltAssertion) (c :: ps) = .NeedsMoreDetail := by
          have := List.of_mem_filter hi
          simpa using this
        refine hfs i (List.mem_of_mem_filter hi) (c :: ps) ?_ hnmd
        intro x hx
        by_contra hxs
        have hxmem : x ∈ remainingCandidates n (c :: ps) :=
          mem_remainingCandidates.mpr ⟨hx, hxs⟩
        rw [hrem] at hxmem
        simp at hxmem
      | cons d0 ds =>
        have hd0 : d0 ∈ remainingCandidates n (c :: ps) := by rw [hrem]; simp
        have hrec : ∀ d ∈ remainingCandidates n (c :: ps),
            (new ev (c :: ps) d
              ((stillOf ev A rel (c :: ps)).filter (fun i => uses u i)) A n g).valid
                = false
            ∧ ∃ i ∈ stillOf ev A rel (c :: ps), uses u i = true := by
          intro d hd
          exact filtered_invalid ev A n u (c :: ps) d (stillOf ev A rel (c :: ps)) f g
            hfsS (hinvch d hd) (hcovch d hd)
        obtain ⟨-, i, hiS, hiu⟩ := hrec d0 hd0
        refine ⟨?_, i, List.mem_of_mem_filter hiS, hiu⟩
        rw [new_eq_of_pruning_empty ev ps c (rel.filter (fun i => uses u i)) A n g hP',
          stillOf_filter]
        have hS'ne : ((stillOf ev A rel (c :: ps)).filter (fun i => uses u i)).isEmpty
            = false := by
          rw [Bool.eq_false_iff]
          intro habs
          rw [List.isEmpty_iff] at habs
          have hmem : i ∈ (stillOf ev A rel (c :: ps)).filter (fun i => uses u i) :=
            List.mem_filter.mpr ⟨hiS, hiu⟩
          rw [habs] at hmem
          simp at hmem
        rw [if_neg (show ¬((stillOf ev A rel (c :: ps)).filter
            (fun i => uses u i)).isEmpty = true by rw [hS'ne]; simp)]
        simp only [valid_mk]
        rw [List.any_eq_false]
        intro t ht
        obtain ⟨d, hd, rfl⟩ := List.mem_map.mp ht
        simpa using (hrec d hd).1
  · by_cases hP' : (pruningOf ev A rel (c :: ps)).filter (fun i => uses u i) = []
    · -- pruned node, no pruning index marked: coverage forces extension mode with
      -- already-eliminated children
      have hPnone : ∀ j ∈ pruningOf ev A rel (c :: ps), uses u j = false := by
        intro j hj
        cases hju : uses u j with
        | false => rfl
        | true =>
          exfalso
          have hmem : j ∈ (pruningOf ev A rel (c :: ps)).filter (fun i => uses u i) :=
            List.mem_filter.mpr ⟨hj, hju⟩
          rw [hP'] at hmem
          simp at hmem
      have hPany : (pruningOf ev A rel (c :: ps)).any (fun v => uses u v) = false :=
        List.any_eq_false.mpr (fun j hj => by simp [hPnone j hj])
      have helim := covered_elim_of_pruning_ne hcov (by rw [new_pruning]; exact hP)
      cases f with
      | false =>
        exfalso
        rw [new_eq_of_pruning_ne_false ev ps c rel A n hP] at helim
        rw [node_already_eliminated, hPany] at helim
        simp at helim
      | true =>
        rw [new_eq_of_pruning_ne_true ev ps c rel A n hP] at helim
        by_cases hS : (stillOf ev A rel (c :: ps)).isEmpty = true
        · exfalso
          rw [if_pos hS] at helim
          rw [node_already_eliminated, hPany] at helim
          simp at helim
        · rw [if_neg hS] at helim
          by_cases hany : ((remainingCandidates n (c :: ps)).map
              (fun d => new ev (c :: ps) d (stillOf ev A rel (c :: ps)) A n false)).any
                valid = true
          · exfalso
            rw [if_pos hany] at helim
            rw [node_already_eliminated, hPany] at helim
            simp at helim
          · rw [if_neg hany] at helim
            rw [Bool.not_eq_true] at hany
            rw [node_already_eliminated, hPany, Bool.false_or, Bool.and_eq_true] at helim
            obtain ⟨hlen, hall⟩ := helim
            have hallmem := (node_already_eliminated_all_iff u _).mp hall
            cases hrem : remainingCandidates n (c :: ps) with
            | nil =>
              exfalso
              rw [hrem] at hlen
              simp at hlen
            | cons d0 ds =>
              have hd0 : d0 ∈ remainingCandidates n (c :: ps) := by rw [hrem]; simp
              have hcovch : ∀ d ∈ remainingCandidates n (c :: ps),
                  Covered u (new ev (c :: ps) d (stillOf ev A rel (c :: ps)) A n false) := by
                intro d hd
                exact covered_of_node_already_eliminated u _
                  (hallmem _ (List.mem_map.mpr ⟨d, hd, rfl⟩))
              have hinvch : ∀ d ∈ remainingCandidates n (c :: ps),
                  (new ev (c :: ps) d (stillOf ev A rel (c :: ps)) A n false).valid
                    = false := by
                intro d hd
                have := List.any_eq_false.mp hany _ (List.mem_map.mpr ⟨d, hd, rfl⟩)
                simpa using this
              have hfsS : ∀ i ∈ stillOf ev A rel (c :: ps), ∀ s' : List Nat,
                  (∀ x, x < n → x ∈ s') →
                    ev (A.getD i dfltAssertion) s' ≠ .NeedsMoreDetail :=
                fun i hi => hfs i (List.mem_of_mem_filter hi)
              have hrec : ∀ d ∈ remainingCandidates n (c :: ps),
                  (new ev (c :: ps) d
                    ((stillOf ev A rel (c :: ps)).filter (fun i => uses u i)) A n g).valid
                      = false
                  ∧ ∃ i ∈ stillOf ev A rel (c :: ps), uses u i = true := by
                intro d hd
                exact filtered_invalid ev A n u (c :: ps) d (stillOf ev A rel (c :: ps))
                  false g hfsS (hinvch d hd) (hcovch d hd)
              obtain ⟨-, i, hiS, hiu⟩ := hrec d0 hd0
              have hP'' : pruningOf ev A (rel.filter (fun i => uses u i)) (c :: ps)
                  = [] := by
                rw [pruningOf_filter]
                exact hP'
              refine ⟨?_, i, List.mem_of_mem_filter hiS, hiu⟩
              rw [new_eq_of_pruning_empty ev ps c (rel.filter (fun i => uses u i)) A n g
                hP'', stillOf_filter]
              have hS'ne : ((stillOf ev A rel (c :: ps)).filter
                  (fun i => uses u i)).isEmpty = false := by
                rw [Bool.eq_false_iff]
                intro habs
                rw [List.isEmpty_iff] at habs
                have hmem : i ∈ (stillOf ev A rel (c :: ps)).filter (fun i => uses u i) :=
                  List.mem_filter.mpr ⟨hiS, hiu⟩
                rw [habs] at hmem
                simp at hmem
              rw [if_neg (show ¬((stillOf ev A rel (c :: ps)).filter
                  (fun i => uses u i)).isEmpty = true by rw [hS'ne]; simp)]
              simp only [valid_mk]
              rw [List.any_eq_false]
              intro t ht
              obtain ⟨d, hd, rfl⟩ := List.mem_map.mp ht
              simpa using (hrec d hd).1
    · -- some pruning index marked: the rebuilt node is itself pruned, hence invalid
      have hPne' : pruningOf ev A (rel.filter (fun i => uses u i)) (c :: ps) ≠ [] := by
        rw [pruningOf_filter]
        exact hP'
      refine ⟨new_valid_false_of_pruning_ne ev ps c (rel.filter (fun i => uses u i))
        A n g hPne', ?_⟩
      obtain ⟨j, hj⟩ := List.exists_mem_of_ne_nil _ hP'
      have hjmem := List.mem_filter.mp hj
      exact ⟨j, List.mem_of_mem_filter hjmem.1, hjmem.2⟩
termination_by (remainingCandidates n (c :: ps)).length
decreasing_by
  all_goals exact remainingCandidates_cons_length_lt n (c :: ps) d hd

/-- For the modelled evaluation, `NeedsMoreDetail` at a suffix containing every
candidate below `n` forces `NeedsMoreDetail` at every duplicate-free suffix of
candidates below `n`: both assertion forms can then only mention candidates outside
`0..n`, which no such suffix settles. -/
theorem nmd_mono (a : Assertion) (n : Nat) (s t : List Nat)
    (hsup : ∀ x, x < n → x ∈ s)
    (hnd : t.Nodup) (hlt : ∀ x ∈ t, x < n)
    (h : a.ok_elimination_order_suffix s = .NeedsMoreDetail) :
    a.ok_elimination_order_suffix t = .NeedsMoreDetail := by
  cases a with
  | NEB w l =>
    simp only [Assertion.ok_elimination_order_suffix] at h ⊢
    by_cases hws : w ∈ s
    · rw [if_pos hws] at h
      by_cases hls : l ∈ s
      · rw [if_pos hls] at h
        split at h <;> cases h
      · rw [if_neg hls] at h
        cases h
    · rw [if_neg hws] at h
      by_cases hls : l ∈ s
      · rw [if_pos hls] at h
        cases h
      · have hwn : n ≤ w := by
          by_contra hc
          exact hws (hsup w (by omega))
        have hln : n ≤ l := by
          by_contra hc
          exact hls (hsup l (by omega))
        have hwt : w ∉ t := fun hm => by have := hlt w hm; omega
        have hlt2 : l ∉ t := fun hm => by have := hlt l hm; omega
        rw [if_neg hwt, if_neg hlt2]
  | NEN w l C =>
    simp only [Assertion.ok_elimination_order_suffix] at h ⊢
    by_cases hlen : C.length ≤ s.length
    · rw [if_pos hlen] at h
      split at h
      · split at h <;> cases h
      · cases h
    · rw [if_neg hlen] at h
      by_cases hcond : (s.all (fun x => C.contains x) && !s.contains w
          && C.contains w) = true
      · obtain ⟨⟨hall, hnw⟩, hwC⟩ := by
          rw [Bool.and_eq_true, Bool.and_eq_true] at hcond
          exact hcond
        have hws : w ∉ s := by simpa using hnw
        have hns : n ≤ s.length := by
          have hsub : List.range n ⊆ s := fun x hx => hsup x (List.mem_range.mp hx)
          have hsp := (List.nodup_range n).subperm hsub
          simpa using hsp.length_le
        have htn : t.length ≤ n := by
          have hsub : t ⊆ List.range n := fun x hx => List.mem_range.mpr (hlt x hx)
          have hsp := hnd.subperm hsub
          simpa using hsp.length_le
        have hlenT : ¬ C.length ≤ t.length := by omega
        rw [if_neg hlenT]
        have hcondT : (t.all (fun x => C.contains x) && !t.contains w
            && C.contains w) = true := by
          have hwn : n ≤ w := by
            by_contra hc
            exact hws (hsup w (by omega))
          have hwt : w ∉ t := fun hm => by have := hlt w hm; omega
          rw [Bool.and_eq_true, Bool.and_eq_true]
          refine ⟨⟨?_, by simpa using hwt⟩, hwC⟩
          rw [List.all_eq_true]
          intro x hx
          exact List.all_eq_true.mp hall x (hsup x (hlt x hx))
        rw [if_pos hcondT]
      · rw [if_neg hcond] at h
        cases h

open TreeNodeShowingWhatAssertionsPrunedIt in
/-- A relevant assertion that needs more detail at every duplicate-free suffix of
candidates below `n` keeps every node of the construction invalid: no leaf can ever
settle it. -/
theorem allNMD_invalid (ev : Assertion → List Nat → Effect) (A : List Assertion)
    (n : Nat) (i : Nat) (ps : List Nat) (c : Nat) (rel : List Nat) (f : Bool)
    (hnd : (c :: ps).Nodup) (hlt : ∀ x ∈ c :: ps, x < n)
    (hi : i ∈ rel)
    (hnmd : ∀ s : List Nat, s.Nodup → (∀ x ∈ s, x < n) →
      ev (A.getD i dfltAssertion) s = .NeedsMoreDetail) :
    (new ev ps c rel A n f).valid = false := by
  by_cases hP : pruningOf ev A rel (c :: ps) = []
  · have hiS : i ∈ stillOf ev A rel (c :: ps) := by
      apply List.mem_filter.mpr
      refine ⟨hi, ?_⟩
      simp only [beq_iff_eq]
      exact hnmd (c :: ps) hnd hlt
    have hSne : (stillOf ev A rel (c :: ps)).isEmpty = false := by
      rw [Bool.eq_false_iff]
      intro habs
      rw [List.isEmpty_iff] at habs
      rw [habs] at hiS
      simp at hiS
    rw [new_eq_of_pruning_empty ev ps c rel A n f hP]
    rw [if_neg (show ¬(stillOf ev A rel (c :: ps)).isEmpty = true by rw [hSne]; simp)]
    simp only [valid_mk]
    rw [List.any_eq_false]
    intro t ht
    obtain ⟨d, hd, rfl⟩ := List.mem_map.mp ht
    have hdmem := mem_remainingCandidates.mp hd
    have hnd' : (d :: c :: ps).Nodup := by
      rw [List.nodup_cons]
      exact ⟨hdmem.2, hnd⟩
    have hlt' : ∀ x ∈ d :: c :: ps, x < n := by
      intro x hx
      rcases List.mem_cons.mp hx with rfl | hx
      · exact hdmem.1
      · exact hlt x hx
    simpa using allNMD_invalid ev A n i (c :: ps) d (stillOf ev A rel (c :: ps)) f
      hnd' hlt' hiS hnmd
  · exact new_valid_false_of_pruning_ne ev ps c rel A n f hP
termination_by (remainingCandidates n (c :: ps)).length
decreasing_by
  exact remainingCandidates_cons_length_lt n (c :: ps) d hd

open TreeNodeShowingWhatAssertionsPrunedIt in
/-- Under the modelled evaluation, validity of the winner's tree rules out any relevant
assertion still needing more detail at a suffix containing every candidate below
`n`. -/
theorem winner_valid_no_nmd (A : List Assertion) (n w : Nat) (rel : List Nat) (f : Bool)
    (hw : w < n)
    (hvalid : (new Assertion.ok_elimination_order_suffix [] w rel A n f).valid = true) :
    ∀ i ∈ rel, ∀ s : List Nat, (∀ x, x < n → x ∈ s) →
      Assertion.ok_elimination_order_suffix (A.getD i dfltAssertion) s
        ≠ .NeedsMoreDetail := by
  intro i hi s hs hnmd
  have hall : ∀ t : List Nat, t.Nodup → (∀ x ∈ t, x < n) →
      Assertion.ok_elimination_order_suffix (A.getD i dfltAssertion) t
        = .NeedsMoreDetail :=
    fun t hnd hlt => nmd_mono _ n s t hs hnd hlt hnmd
  have hinv := allNMD_invalid Assertion.ok_elimination_order_suffix A n i [] w rel f
    (by simp) (by intro x hx; rw [List.mem_singleton] at hx; omega) hi hall
  rw [hinv] at hvalid
  cases hvalid

/-! ## Minimization soundness: relating the filtered list to filtered index sets -/

theorem forall₂_filter_congr {α β : Type} {R : α → β → Prop} {p : α → Bool}
    {q : β → Bool} :
    ∀ {l : List α} {l' : List β}, List.Forall₂ R l l' →
      (∀ a b, R a b → p a = q b) →
      List.Forall₂ R (l.filter p) (l'.filter q) := by
  intro l l' h hpq
  induction h with
  | nil => exact List.Forall₂.nil
  | @cons a b l1 l2 h1 h2 ih =>
    rw [List.filter_cons, List.filter_cons]
    have heq : p a = q b := hpq a b h1
    cases hpa : p a with
    | true =>
      rw [if_pos rfl, if_pos (show q b = true by rw [← heq]; exact hpa)]
      exact List.Forall₂.cons h1 ih
    | false =>
      rw [if_neg (by simp), if_neg (show ¬q b = true by rw [← heq, hpa]; simp)]
      exact ih

theorem forall₂_range_map {α : Type} (g : Nat → α) (d : α) (K : List Nat) :
    List.Forall₂ (fun j i => (K.map g).getD j d = g i)
      (List.range (K.map g).length) K := by
  induction K with
  | nil => exact List.Forall₂.nil
  | cons i K ih =>
    rw [List.map_cons, List.length_cons, List.range_succ_eq_map]
    refine List.Forall₂.cons rfl ?_
    rw [List.forall₂_map_left_iff]
    refine List.Forall₂.imp ?_ ih
    intro j i' hji'
    simpa using hji'

/-- Keeping the elements of `l` whose position satisfies `q` and projecting through `h`
is the same as selecting the satisfying positions and indexing the projected list. -/
theorem enumFrom_filter_map {α β : Type} (q : Nat → Bool) (h : α → β) (d : β) :
    ∀ (l : List α) (k : Nat),
      ((l.enumFrom k).filter (fun p => q p.1)).map (fun p => h p.2)
        = ((List.range' k l.length).filter q).map (fun i => (l.map h).getD (i - k) d) := by
  intro l
  induction l with
  | nil => intro k; rfl
  | cons a l ih =>
    intro k
    rw [List.enumFrom_cons, List.length_cons, List.range'_succ]
    rw [List.filter_cons, List.filter_cons]
    cases hq : q k with
    | true =>
      rw [if_pos rfl, if_pos rfl]
      rw [List.map_cons, List.map_cons]
      congr 1
      · show h a = ((a :: l).map h).getD (k - k) d
        rw [List.map_cons, Nat.sub_self]
        rfl
      · rw [ih (k + 1)]
        apply List.map_congr_left
        intro i hi
        have hmem := (List.mem_filter.mp hi).1
        have hge : k + 1 ≤ i := (List.mem_range'_1.mp hmem).1
        have hik : i - k = (i - (k + 1)) + 1 := by omega
        rw [List.map_cons, hik, List.getD_cons_succ]
    | false =>
      rw [if_neg (by simp), if_neg (by simp)]
      rw [ih (k + 1)]
      apply List.map_congr_left
      intro i hi
      have hmem := (List.mem_filter.mp hi).1
      have hge : k + 1 ≤ i := (List.mem_range'_1.mp hmem).1
      have hik : i - k = (i - (k + 1)) + 1 := by omega
      rw [List.map_cons, hik, List.getD_cons_succ]

theorem enum_eq {α : Type} (l : List α) : l.enum = l.enumFrom 0 := rfl

theorem candidateTree_eq (ev : Assertion → List Nat → Effect) (A : List Assertion)
    (n : Nat) (f : Bool) (c : Nat) :
    candidateTree ev A n f c
      = TreeNodeShowingWhatAssertionsPrunedIt.new ev [] c (List.range A.length) A n f :=
  rfl

namespace TreeNodeShowingWhatAssertionsPrunedIt

theorem any_valid_map_congr {α : Type} (l : List α) (g g' : α → Tree)
    (h : ∀ x ∈ l, (g x).valid = (g' x).valid) :
    (l.map g).any valid = (l.map g').any valid := by
  induction l with
  | nil => rfl
  | cons a l ih =>
    simp only [List.map_cons, List.any_cons]
    rw [h a (by simp), ih (fun x hx => h x (by simp [hx]))]

/-- Validity depends only on the assertions the relevant indices select: two index
lists pointwise selecting equal assertions out of two pools build equally valid
nodes. -/
theorem new_valid_congr (ev : Assertion → List Nat → Effect) (A B : List Assertion)
    (n : Nat) (ps : List Nat) (c : Nat) (relB relA : List Nat) (f : Bool)
    (h : List.Forall₂ (fun j i => B.getD j dfltAssertion = A.getD i dfltAssertion)
      relB relA) :
    (new ev ps c relB B n f).valid = (new ev ps c relA A n f).valid := by
  have hP2 : List.Forall₂ (fun j i => B.getD j dfltAssertion = A.getD i dfltAssertion)
      (pruningOf ev B relB (c :: ps)) (pruningOf ev A relA (c :: ps)) := by
    apply forall₂_filter_congr h
    intro a b hab
    show (ev (B.getD a dfltAssertion) (c :: ps) == EffectOfAssertionOnEliminationOrderSuffix.Contradiction)
        = (ev (A.getD b dfltAssertion) (c :: ps) == EffectOfAssertionOnEliminationOrderSuffix.Contradiction)
    rw [hab]
  have hS2 : List.Forall₂ (fun j i => B.getD j dfltAssertion = A.getD i dfltAssertion)
      (stillOf ev B relB (c :: ps)) (stillOf ev A relA (c :: ps)) := by
    apply forall₂_filter_congr h
    intro a b hab
    show (ev (B.getD a dfltAssertion) (c :: ps) == EffectOfAssertionOnEliminationOrderSuffix.NeedsMoreDetail)
        = (ev (A.getD b dfltAssertion) (c :: ps) == EffectOfAssertionOnEliminationOrderSuffix.NeedsMoreDetail)
    rw [hab]
  by_cases hPA : pruningOf ev A relA (c :: ps) = []
  · have hPB : pruningOf ev B relB (c :: ps) = [] := by
      have hlen := hP2.length_eq
      rw [hPA] at hlen
      exact List.length_eq_zero.mp (by simpa using hlen)
    rw [new_eq_of_pruning_empty ev ps c relA A n f hPA,
      new_eq_of_pruning_empty ev ps c relB B n f hPB]
    by_cases hSA : (stillOf ev A relA (c :: ps)).isEmpty = true
    · have hSB : (stillOf ev B relB (c :: ps)).isEmpty = true := by
        have hlen := hS2.length_eq
        rw [List.isEmpty_iff] at hSA ⊢
        rw [hSA] at hlen
        exact List.length_eq_zero.mp (by simpa using hlen)
      rw [if_pos hSA, if_pos hSB]
    · have hSB : ¬(stillOf ev B relB (c :: ps)).isEmpty = true := by
        intro habs
        apply hSA
        have hlen := hS2.length_eq
        rw [List.isEmpty_iff] at habs ⊢
        rw [habs] at hlen
        exact List.length_eq_zero.mp (by simpa using hlen.symm)
      rw [if_neg hSB, if_neg hSA]
      simp only [valid_mk]
      apply any_valid_map_congr
      intro d hd
      exact new_valid_congr ev A B n (c :: ps) d (stillOf ev B relB (c :: ps))
        (stillOf ev A relA (c :: ps)) f hS2
  · have hPB : pruningOf ev B relB (c :: ps) ≠ [] := by
      intro habs
      apply hPA
      have hlen := hP2.length_eq
      rw [habs] at hlen
      exact List.length_eq_zero.mp (by simpa using hlen.symm)
    rw [new_valid_false_of_pruning_ne ev ps c relA A n f hPA,
      new_valid_false_of_pruning_ne ev ps c relB B n f hPB]
termination_by (remainingCandidates n (c :: ps)).length
decreasing_by
  exact remainingCandidates_cons_length_lt n (c :: ps) d hd

end TreeNodeShowingWhatAssertionsPrunedIt

namespace SimplisticWorkOutWhichAssertionsAreUsed

theorem length_foldl_forced {α : Type} (g : α → Tree) (l : List α) :
    ∀ u : List Bool,
      (l.foldl (fun u' a => add_tree_forced u' (g a)) u).length = u.length := by
  induction l with
  | nil => intro u; rfl
  | cons a l ih =>
    intro u
    rw [List.foldl_cons, ih, length_add_tree_forced]

end SimplisticWorkOutWhichAssertionsAreUsed

open TreeNodeShowingWhatAssertionsPrunedIt SimplisticWorkOutWhichAssertionsAreUsed in
/-- C2 (amended: the winner argument must name an actual candidate, `winner <
num_candidates`): on every successful run under the modelled evaluation, rebuilding
each candidate's pruning tree from exactly the filtered assertion list (empty suffix,
full index list over that list) again yields root validity `c == winner` for every
candidate `c` below `num_candidates` — minimization never discards an assertion that
was load-bearing for excluding a non-winner. -/
theorem C2_minimization_soundness :
    ∀ {D : Type} (assertions : List (AssertionAndDifficulty D)) (w n : Nat) (f : Bool),
      w < n →
      (order_assertions_and_remove_unnecessary
          Assertion.ok_elimination_order_suffix assertions w n f).result = none →
      ∀ c, c < n →
        (new Assertion.ok_elimination_order_suffix [] c
          (List.range ((order_assertions_and_remove_unnecessary
              Assertion.ok_elimination_order_suffix assertions w n f).assertions.map
                (fun x => x.assertion)).length)
          ((order_assertions_and_remove_unnecessary
              Assertion.ok_elimination_order_suffix assertions w n f).assertions.map
                (fun x => x.assertion))
          n f).valid = (c == w) := by
  intro D assertions w n f hw hsucc c hc
  have hnone : (driverCheck Assertion.ok_elimination_order_suffix assertions w n f).error
      = none := by
    rw [← driver_result_eq]
    exact hsucc
  have hviol := (processCandidates_range' Assertion.ok_elimination_order_suffix
    ((sortAssertions assertions).map (·.assertion)) w n f n 0
    (mkUsed ((sortAssertions assertions).map (·.assertion)).length) [] []).1
  rw [← List.range_eq_range'] at hviol
  have hall : ∀ c', c' < n →
      (candidateTree Assertion.ok_elimination_order_suffix
        ((sortAssertions assertions).map (·.assertion)) n f c').valid = (c' == w) := by
    intro c' hc'
    exact (hviol.mp (by exact hnone)) c' (Nat.zero_le c') (by omega)
  have hco := driverCheck_of_no_violation Assertion.ok_elimination_order_suffix
    assertions w n f hall
  have hdrv := driver_eq_of_none Assertion.ok_elimination_order_suffix assertions w n f
    hnone
  -- the filtered assertion list, written as selected positions of the sorted list
  have hA' : (order_assertions_and_remove_unnecessary
        Assertion.ok_elimination_order_suffix assertions w n f).assertions.map
          (fun x => x.assertion)
      = ((List.range ((sortAssertions assertions).map (fun x => x.assertion)).length).filter
            (fun i => uses (driverUsed Assertion.ok_elimination_order_suffix
              assertions w n f) i)).map
          (fun i => ((sortAssertions assertions).map (fun x => x.assertion)).getD i
            dfltAssertion) := by
    rw [hdrv]
    show (((sortAssertions assertions).enum.filter
        (fun p => uses (driverUsed Assertion.ok_elimination_order_suffix
          assertions w n f) p.1)).map (fun p => p.2)).map (fun x => x.assertion) = _
    rw [List.map_map]
    have henum := enumFrom_filter_map
      (fun i => uses (driverUsed Assertion.ok_elimination_order_suffix assertions w n f) i)
      (fun x : AssertionAndDifficulty D => x.assertion) dfltAssertion
      (sortAssertions assertions) 0
    rw [show (sortAssertions assertions).length
        = ((sortAssertions assertions).map (fun x => x.assertion)).length
      from (List.length_map _ _).symm] at henum
    rw [← List.range_eq_range'] at henum
    simp only [Nat.sub_zero] at henum
    rw [enum_eq]
    simp only [Function.comp_def]
    exact henum
  rw [hA']
  have hF2 := forall₂_range_map
    (fun i => ((sortAssertions assertions).map (fun x => x.assertion)).getD i
      dfltAssertion)
    dfltAssertion
    ((List.range ((sortAssertions assertions).map (fun x => x.assertion)).length).filter
      (fun i => uses (driverUsed Assertion.ok_elimination_order_suffix
        assertions w n f) i))
  have hcongr := new_valid_congr Assertion.ok_elimination_order_suffix
    ((sortAssertions assertions).map (fun x => x.assertion)) _ n [] c _ _ f hF2
  rw [hcongr]
  have hwvalid : (new Assertion.ok_elimination_order_suffix [] w
      (List.range ((sortAssertions assertions).map (fun x => x.assertion)).length)
      ((sortAssertions assertions).map (fun x => x.assertion)) n f).valid = true := by
    have hv := hall w hw
    rw [candidateTree_eq] at hv
    simpa using hv
  by_cases hcw : c = w
  · subst hcw
    rw [show (c == c) = true from by simp]
    exact new_valid_mono Assertion.ok_elimination_order_suffix
      ((sortAssertions assertions).map (fun x => x.assertion)) n
      (fun i => uses (driverUsed Assertion.ok_elimination_order_suffix
        assertions c n f) i)
      [] c (List.range ((sortAssertions assertions).map (fun x => x.assertion)).length)
      f (by exact hwvalid)
  · rw [show (c == w) = false from by simp [hcw]]
    have hinvc : (new Assertion.ok_elimination_order_suffix [] c
        (List.range ((sortAssertions assertions).map (fun x => x.assertion)).length)
        ((sortAssertions assertions).map (fun x => x.assertion)) n f).valid = false := by
      have hv := hall c hc
      rw [candidateTree_eq] at hv
      rw [hv]
      simp [hcw]
    have hu2 : driverUsed Assertion.ok_elimination_order_suffix assertions w n f
        = (((List.range n).filter (fun c => !(c == w))).map
            (candidateTree Assertion.ok_elimination_order_suffix
              ((sortAssertions assertions).map (·.assertion)) n f)).foldl
          add_tree_second_pass
          (((List.range n).filter (fun c => !(c == w))).foldl
            (fun u' c => add_tree_forced u'
              (candidateTree Assertion.ok_elimination_order_suffix
                ((sortAssertions assertions).map (·.assertion)) n f c))
            (mkUsed ((sortAssertions assertions).map (·.assertion)).length)) := by
      unfold driverUsed
      rw [hco]
    have hUlen : (((List.range n).filter (fun c => !(c == w))).foldl
        (fun u' c => add_tree_forced u'
          (candidateTree Assertion.ok_elimination_order_suffix
            ((sortAssertions assertions).map (·.assertion)) n f c))
        (mkUsed ((sortAssertions assertions).map (·.assertion)).length)).length
        = ((sortAssertions assertions).map (·.assertion)).length := by
      rw [length_foldl_forced]
      simp [mkUsed]
    have hbounds : ∀ t ∈ ((List.range n).filter (fun c => !(c == w))).map
        (candidateTree Assertion.ok_elimination_order_suffix
          ((sortAssertions assertions).map (·.assertion)) n f),
        AllNodes (fun nd => ∀ i ∈ nd.pruning_assertions,
          i < (((List.range n).filter (fun c => !(c == w))).foldl
            (fun u' c => add_tree_forced u'
              (candidateTree Assertion.ok_elimination_order_suffix
                ((sortAssertions assertions).map (·.assertion)) n f c))
            (mkUsed ((sortAssertions assertions).map (·.assertion)).length)).length) t := by
      intro t ht
      obtain ⟨c', hc', rfl⟩ := List.mem_map.mp ht
      rw [candidateTree_eq]
      refine allNodes_imp ?_ (allNodes_pruning_sub Assertion.ok_elimination_order_suffix
        ((sortAssertions assertions).map (·.assertion)) n [] c'
        (List.range ((sortAssertions assertions).map (·.assertion)).length) f)
      intro t' h' i hi
      rw [hUlen]
      exact List.mem_range.mp (h' i hi)
    have hcmem : candidateTree Assertion.ok_elimination_order_suffix
        ((sortAssertions assertions).map (·.assertion)) n f c
        ∈ ((List.range n).filter (fun c => !(c == w))).map
          (candidateTree Assertion.ok_elimination_order_suffix
            ((sortAssertions assertions).map (·.assertion)) n f) :=
      List.mem_map.mpr ⟨c,
        List.mem_filter.mpr ⟨List.mem_range.mpr hc, by simp [hcw]⟩, rfl⟩
    have hcov := foldl_second_pass_covers _ _ hbounds _ hcmem
    rw [← hu2] at hcov
    rw [candidateTree_eq] at hcov
    have hfs := winner_valid_no_nmd
      ((sortAssertions assertions).map (fun x => x.assertion)) n w
      (List.range ((sortAssertions assertions).map (fun x => x.assertion)).length)
      f hw hwvalid
    exact (filtered_invalid Assertion.ok_elimination_order_suffix
      ((sortAssertions assertions).map (fun x => x.assertion)) n
      (driverUsed Assertion.ok_elimination_order_suffix assertions w n f)
      [] c (List.range ((sortAssertions assertions).map (fun x => x.assertion)).length)
      f f hfs hinvc hcov).1

/-- C2 (counterexample to the unamended claim): with a winner argument naming no actual
candidate (winner 5 among 1 candidate), the run succeeds, yet the tree for candidate 0
rebuilt from the (empty) filtered list is valid while `0 == 5` is false. -/
theorem C2_minimization_counterexample :
    (order_assertions_and_remove_unnecessary Assertion.ok_elimination_order_suffix
        [⟨Assertion.NEB 1 2, 0⟩] 5 1 false : DriverResult Nat).result = none
    ∧ (TreeNodeShowingWhatAssertionsPrunedIt.new Assertion.ok_elimination_order_suffix
        [] 0
        (List.range ((order_assertions_and_remove_unnecessary
            Assertion.ok_elimination_order_suffix
            [⟨Assertion.NEB 1 2, 0⟩] 5 1 false : DriverResult Nat).assertions.map
              (fun x => x.assertion)).length)
        ((order_assertions_and_remove_unnecessary Assertion.ok_elimination_order_suffix
            [⟨Assertion.NEB 1 2, 0⟩] 5 1 false : DriverResult Nat).assertions.map
              (fun x => x.assertion))
        1 false).valid = true
    ∧ ((0 == 5) : Bool) = false := by
  refine ⟨by decide, by decide, by decide⟩

/-- C2 (witness): the amended claim instantiated on the one-assertion input `[NEB 0 1]`
with winner 0 among two candidates. -/
theorem C2_minimization_soundness_witness :
    0 < 2
    ∧ (order_assertions_and_remove_unnecessary Assertion.ok_elimination_order_suffix
        [⟨Assertion.NEB 0 1, 0⟩] 0 2 false : DriverResult Nat).result = none
    ∧ ∀ c, c < 2 →
        (TreeNodeShowingWhatAssertionsPrunedIt.new Assertion.ok_elimination_order_suffix
          [] c
          (List.range ((order_assertions_and_remove_unnecessary
              Assertion.ok_elimination_order_suffix
              [⟨Assertion.NEB 0 1, 0⟩] 0 2 false : DriverResult Nat).assertions.map
                (fun x => x.assertion)).length)
          ((order_assertions_and_remove_unnecessary Assertion.ok_elimination_order_suffix
              [⟨Assertion.NEB 0 1, 0⟩] 0 2 false : DriverResult Nat).assertions.map
                (fun x => x.assertion))
          2 false).valid = (c == 0) :=
  ⟨by decide, by decide,
    @C2_minimization_soundness Nat [⟨Assertion.NEB 0 1, 0⟩] 0 2 false
      (by decide) (by decide)⟩

end Raire
